import Mathlib

/-!
Verification of the lifecycle registry in `core/health.go` of
`polkadot-go/helper`.

The Go code is shallowly embedded: the `components` map becomes an
association list with last-write-wins update, the `initialized` /
`visited` / `visiting` boolean maps become `Finset String`, and the
effectful `Init` / `Shutdown` / hook calls become pure per-component
result data together with an explicit trace of invocations.  The
unbounded recursion of `visit` (inside `topologicalSort`) and of
`initOne` is embedded with an explicit fuel parameter; the registry
always supplies `components.length + 2` fuel, which the theorems show
is sufficient on every input they speak about.
-/

set_option maxHeartbeats 1000000

namespace Core

/-- A value implementing the Go `Initializer` interface: `Name()`,
`Dependencies()`, the result of `Init()` (`none` = success), and,
when it also implements `Shutdowner`, the result of `Shutdown(ctx)`
(`shutdownRes = none` means the value does not implement `Shutdowner`;
`some none` a successful shutdown; `some (some e)` a failing one). -/
structure Comp where
  name : String
  deps : List String
  initRes : Option String
  shutdownRes : Option (Option String)
deriving DecidableEq

/-- A value passed to `Register`: either it implements `Initializer`
(`initComp`) or it does not (`plain`, covering every other value). -/
inductive RegValue where
  | initComp (c : Comp)
  | plain
deriving DecidableEq

/-- The `Registry` struct: components map (association list, key =
component name), the `initialized` set, the stored `initOrder`, and the
extra shutdown hooks (each hook's behaviour is its returned error). -/
structure Registry where
  components : List (String × RegValue)
  initDone : Finset String
  initOrder : List String
  shutdownHooks : List (Option String)
deriving DecidableEq

/-- Go map lookup `r.components[name]` over the association list. -/
def lookupComp (name : String) : List (String × RegValue) → Option RegValue
  | [] => none
  | (k, v) :: rest => if k = name then some v else lookupComp name rest

/-- Go map update `m[k] = v` (overwrite, last registration wins). -/
def updateAssoc (k : String) (v : RegValue) : List (String × RegValue) → List (String × RegValue)
  | [] => [(k, v)]
  | (k', v') :: rest => if k' = k then (k, v) :: rest else (k', v') :: updateAssoc k v rest

/-- `Register`: stores the value under `init.Name()` when it implements
`Initializer`; otherwise it does nothing at all. -/
def Register (v : RegValue) (r : Registry) : Registry :=
  match v with
  | RegValue.initComp c => { r with components := updateAssoc c.name v r.components }
  | RegValue.plain => r

/-- The dependency list the sort sees for `name`: the declared
dependencies when `name` maps to an `Initializer`, `[]` otherwise. -/
def valDeps : RegValue → List String
  | RegValue.initComp c => c.deps
  | RegValue.plain => []

/-- Dependencies of `name` as read by `visit` and `initOne`. -/
def depsOf (comps : List (String × RegValue)) (name : String) : List String :=
  match lookupComp name comps with
  | some v => valDeps v
  | none => []

/-- The set of registered names. -/
def regKeysF (comps : List (String × RegValue)) : Finset String :=
  (comps.map Prod.fst).toFinset

/-- Edge relation of the dependency graph: `Dep comps n d` holds when the
registered component `n` declares a dependency on `d`. -/
def Dep (comps : List (String × RegValue)) (n d : String) : Prop :=
  ∃ c, lookupComp n comps = some (RegValue.initComp c) ∧ d ∈ c.deps

/-- State of the three-colour depth-first traversal in `topologicalSort`. -/
structure SortSt where
  visited : Finset String
  visiting : Finset String
  order : List String
deriving DecidableEq

/-- The error produced when `visit` finds a node already in progress. -/
def cycleMsg (name : String) : String :=
  "circular dependency detected involving " ++ name

/-- Artificial error marking fuel exhaustion; never reached with the
fuel the registry supplies. -/
def fuelMsg : String := "recursion limit exceeded"

/-- Sequencing of `visit` over a list of names, stopping at the first
error: the shape of both the dependency loop inside `visit` and the top
loop of `topologicalSort`. -/
def visitList (f : String → SortSt → Except String SortSt) :
    List String → SortSt → Except String SortSt
  | [], s => Except.ok s
  | d :: ds, s =>
    match f d s with
    | Except.error e => Except.error e
    | Except.ok s' => visitList f ds s'

/-- The recursive `visit` closure of `topologicalSort`: revisit of an
in-progress node fails with the cycle error, a done node is skipped,
otherwise the node is marked in progress, its dependencies (when it is a
registered `Initializer`) are visited, and the node is marked done and
appended to the order. -/
def visit (comps : List (String × RegValue)) : Nat → String → SortSt → Except String SortSt
  | 0 => fun _ _ => Except.error fuelMsg
  | fuel + 1 => fun name s =>
    if name ∈ s.visiting then Except.error (cycleMsg name)
    else if name ∈ s.visited then Except.ok s
    else
      match visitList (visit comps fuel) (depsOf comps name)
          ⟨s.visited, insert name s.visiting, s.order⟩ with
      | Except.error e => Except.error e
      | Except.ok s2 =>
          Except.ok ⟨insert name s2.visited, s2.visiting.erase name, s2.order ++ [name]⟩

/-- Lexicographic comparison of char lists by code point, the order
`sort.Strings` uses (byte order on UTF-8 agrees with code-point
order). -/
def strLeB : List Char → List Char → Bool
  | [], _ => true
  | _ :: _, [] => false
  | a :: as, b :: bs =>
    if a < b then true
    else if b < a then false
    else strLeB as bs

/-- Lexicographic order on strings. -/
def strLe (s t : String) : Prop := strLeB s.data t.data = true

instance : DecidableRel strLe := fun s t => by
  unfold strLe; infer_instance

theorem strLeB_cons (a b : Char) (as bs : List Char) :
    strLeB (a :: as) (b :: bs) = true ↔ (a < b ∨ (a = b ∧ strLeB as bs = true)) := by
  show (if a < b then true else if b < a then false else strLeB as bs) = true ↔ _
  rcases lt_trichotomy a b with h | h | h
  · simp [h]
  · subst h; simp [lt_irrefl]
  · simp [h.not_lt, h, h.ne.symm]

theorem strLeB_total : ∀ as bs, strLeB as bs = true ∨ strLeB bs as = true
  | [], _ => Or.inl rfl
  | _ :: _, [] => Or.inr rfl
  | a :: as, b :: bs => by
    rcases lt_trichotomy a b with h | h | h
    · exact Or.inl ((strLeB_cons a b as bs).2 (Or.inl h))
    · subst h
      rcases strLeB_total as bs with h2 | h2
      · exact Or.inl ((strLeB_cons a a as bs).2 (Or.inr ⟨rfl, h2⟩))
      · exact Or.inr ((strLeB_cons a a bs as).2 (Or.inr ⟨rfl, h2⟩))
    · exact Or.inr ((strLeB_cons b a bs as).2 (Or.inl h))

theorem strLeB_trans : ∀ as bs cs, strLeB as bs = true → strLeB bs cs = true →
    strLeB as cs = true
  | [], _, _, _, _ => rfl
  | a :: as, [], _, h, _ => by exact absurd h (by simp [strLeB])
  | a :: as, b :: bs, [], _, h => by exact absurd h (by simp [strLeB])
  | a :: as, b :: bs, c :: cs, h1, h2 => by
    rcases (strLeB_cons a b as bs).1 h1 with hab | ⟨hab, r1⟩ <;>
      rcases (strLeB_cons b c bs cs).1 h2 with hbc | ⟨hbc, r2⟩
    · exact (strLeB_cons a c as cs).2 (Or.inl (hab.trans hbc))
    · exact (strLeB_cons a c as cs).2 (Or.inl (hbc ▸ hab))
    · exact (strLeB_cons a c as cs).2 (Or.inl (hab ▸ hbc))
    · exact (strLeB_cons a c as cs).2
        (Or.inr ⟨hab.trans hbc, strLeB_trans as bs cs r1 r2⟩)

theorem strLeB_antisymm : ∀ as bs, strLeB as bs = true → strLeB bs as = true → as = bs
  | [], [], _, _ => rfl
  | [], _ :: _, _, h => by exact absurd h (by simp [strLeB])
  | _ :: _, [], h, _ => by exact absurd h (by simp [strLeB])
  | a :: as, b :: bs, h1, h2 => by
    rcases (strLeB_cons a b as bs).1 h1 with hab | ⟨hab, r1⟩ <;>
      rcases (strLeB_cons b a bs as).1 h2 with hba | ⟨hba, r2⟩
    · exact absurd hba hab.not_lt
    · exact absurd hab (hba ▸ lt_irrefl a)
    · exact absurd hba (hab ▸ lt_irrefl a)
    · rw [hab, strLeB_antisymm as bs r1 r2]

instance : IsTotal String strLe := ⟨fun a b => strLeB_total a.data b.data⟩

instance : IsTrans String strLe :=
  ⟨fun a b c h1 h2 => strLeB_trans a.data b.data c.data h1 h2⟩

instance : IsAntisymm String strLe :=
  ⟨fun a b h1 h2 => by
    cases a; cases b
    exact congrArg String.mk (strLeB_antisymm _ _ h1 h2)⟩

/-- `sort.Strings(names)`: the registered names in ascending
lexicographic order. -/
def sortedNames (comps : List (String × RegValue)) : List String :=
  List.insertionSort strLe (comps.map Prod.fst)

/-- `topologicalSort`: visit every registered name in lexicographic
order and return the accumulated order, or the first error. -/
def topologicalSort (comps : List (String × RegValue)) : Except String (List String) :=
  match visitList (visit comps (comps.length + 2)) (sortedNames comps) ⟨∅, ∅, []⟩ with
  | Except.error e => Except.error e
  | Except.ok s => Except.ok s.order

/-- State threaded through initialization: the `initialized` set and the
trace of component names whose `Init()` was invoked, in invocation
order. -/
structure InitSt where
  initDone : Finset String
  trace : List String
deriving DecidableEq

/-- The dependency loop of `initOne`: each not-yet-initialized
dependency is ensured first, stopping at the first error. -/
def initDeps (f : String → InitSt → InitSt × Option String) :
    List String → InitSt → InitSt × Option String
  | [], s => (s, none)
  | d :: ds, s =>
    if d ∈ s.initDone then initDeps f ds s
    else
      match f d s with
      | (s', some e) => (s', some e)
      | (s', none) => initDeps f ds s'

/-- `initOne`: skip if already initialized; unknown names and
non-`Initializer` values fail; otherwise ensure dependencies, invoke
`Init()` (recorded in the trace), and mark the name initialized on
success. -/
def initOne (comps : List (String × RegValue)) : Nat → String → InitSt → InitSt × Option String
  | 0 => fun _ s => (s, some fuelMsg)
  | fuel + 1 => fun name s =>
    if name ∈ s.initDone then (s, none)
    else
      match lookupComp name comps with
      | none => (s, some ("unknown component: " ++ name))
      | some RegValue.plain => (s, some (name ++ " does not implement Initializer"))
      | some (RegValue.initComp c) =>
        match initDeps (initOne comps fuel) c.deps s with
        | (s', some e) => (s', some e)
        | (s', none) =>
          let s2 : InitSt := ⟨s'.initDone, s'.trace ++ [name]⟩
          match c.initRes with
          | some e => (s2, some e)
          | none => (⟨insert name s2.initDone, s2.trace⟩, none)

/-- The walk of `Initialize` over the computed order, wrapping the first
failure as `initializing <name>: <err>`. -/
def runOrder (comps : List (String × RegValue)) (fuel : Nat) :
    List String → InitSt → InitSt × Option String
  | [], s => (s, none)
  | n :: ns, s =>
    match initOne comps fuel n s with
    | (s', some e) => (s', some ("initializing " ++ n ++ ": " ++ e))
    | (s', none) => runOrder comps fuel ns s'

/-- `Initialize`: run `topologicalSort` (an ordering error is returned
as is), store `initOrder`, then walk the order.  Returns the updated
registry, the trace of `Init()` invocations, and the error if any. -/
def initAll (r : Registry) : Registry × List String × Option String :=
  match topologicalSort r.components with
  | Except.error e => (r, [], some e)
  | Except.ok order =>
    match runOrder r.components (r.components.length + 2) order ⟨r.initDone, []⟩ with
    | (s, err) => ({ r with initOrder := order, initDone := s.initDone }, s.trace, err)

/-- Events observable during `Shutdown`: a component's `Shutdown(ctx)`
invocation, or the run of the extra hook registered at a position. -/
inductive SEvent where
  | comp (name : String)
  | hook (idx : Nat)
deriving DecidableEq

/-- The `Shutdown` capability of the value registered under a name:
`none` when the name is absent or the value is no `Shutdowner`;
otherwise the result its `Shutdown(ctx)` returns. -/
def shutRes (comps : List (String × RegValue)) (n : String) : Option (Option String) :=
  match lookupComp n comps with
  | some (RegValue.initComp c) => c.shutdownRes
  | _ => none

/-- The reverse walk of `Shutdown` over the (already reversed) init
order: absent names and non-`Shutdowner` values are skipped, the first
failing `Shutdown(ctx)` aborts with a wrapped error. -/
def shutdownWalk (comps : List (String × RegValue)) :
    List String → List SEvent → List SEvent × Option String
  | [], tr => (tr, none)
  | n :: ns, tr =>
    match shutRes comps n with
    | none => shutdownWalk comps ns tr
    | some res =>
      match res with
      | some e => (tr ++ [SEvent.comp n], some ("shutting down " ++ n ++ ": " ++ e))
      | none => shutdownWalk comps ns (tr ++ [SEvent.comp n])

/-- The extra-hook loop of `Shutdown`: hooks run in registration order;
the first hook error is returned unwrapped and aborts the rest. -/
def runHooks : List (Option String) → Nat → List SEvent → List SEvent × Option String
  | [], _, tr => (tr, none)
  | h :: hs, i, tr =>
    match h with
    | some e => (tr ++ [SEvent.hook i], some e)
    | none => runHooks hs (i + 1) (tr ++ [SEvent.hook i])

/-- `Shutdown`: walk `initOrder` in reverse, then, only when that walk
succeeded, run the extra hooks.  Returns the event trace and the error
if any. -/
def Shutdown (r : Registry) : List SEvent × Option String :=
  match shutdownWalk r.components r.initOrder.reverse [] with
  | (tr, some e) => (tr, some e)
  | (tr, none) => runHooks r.shutdownHooks 0 tr

/-- `RegisterShutdownHook` appends to the hook list. -/
def RegisterShutdownHook (h : Option String) (r : Registry) : Registry :=
  { r with shutdownHooks := r.shutdownHooks ++ [h] }

/-- Number of hooks `Shutdown` actually runs: everything up to and
including the first failing hook. -/
def hookRunCount : List (Option String) → Nat
  | [] => 0
  | none :: hs => hookRunCount hs + 1
  | some _ :: _ => 1

/-- The first hook error, if any. -/
def firstHookErr : List (Option String) → Option String
  | [] => none
  | none :: hs => firstHookErr hs
  | some e :: _ => some e

/-- `HealthStatus` enumeration. -/
inductive HealthStatus where
  | statusUnknown
  | healthy
  | degraded
  | unhealthy
deriving DecidableEq

/-- A registered health checker: the status and error its
`HealthCheck(ctx)` returns, and the (logical) time the check takes. -/
structure HChecker where
  status : HealthStatus
  errMsg : Option String
  dur : Nat
deriving DecidableEq

/-- A `HealthResult` snapshot: status, error, and the `time.Now()`
timestamp taken right after the check returned. -/
structure HealthResult where
  status : HealthStatus
  errMsg : Option String
  time : Nat
deriving DecidableEq

/-- The loop of `CheckHealth`: polls every registered checker and stamps
each result with the clock value after that check (the clock advances by
the check's duration). -/
def checkHealthAux : List (String × HChecker) → Nat → List (String × HealthResult)
  | [], _ => []
  | (n, ch) :: rest, t =>
    (n, ⟨ch.status, ch.errMsg, t + ch.dur⟩) :: checkHealthAux rest (t + ch.dur)

/-- `CheckHealth`, entered at clock value `t0`. -/
def CheckHealth (checkers : List (String × HChecker)) (t0 : Nat) :
    List (String × HealthResult) :=
  checkHealthAux checkers t0

/-- `RegisterHealthCheck` stores the checker under the name
(overwriting any previous entry). -/
def RegisterHealthCheck (n : String) (ch : HChecker) :
    List (String × HChecker) → List (String × HChecker)
  | [] => [(n, ch)]
  | (k, v) :: rest =>
    if k = n then (n, ch) :: rest else (k, v) :: RegisterHealthCheck n ch rest

/-- The ordering property `topologicalSort` must establish: every
declared dependency of the component at position `i` occurs strictly
earlier in the order. -/
def DepsBefore (comps : List (String × RegValue)) (order : List String) : Prop :=
  ∀ i, (h : i < order.length) → ∀ d, d ∈ depsOf comps (order[i]) → d ∈ order.take i

/-- No component declares a dependency outside the registered names. -/
def ClosedGraph (comps : List (String × RegValue)) : Prop :=
  ∀ p ∈ comps, ∀ d ∈ valDeps p.2, (lookupComp d comps).isSome = true

instance (comps : List (String × RegValue)) : Decidable (ClosedGraph comps) := by
  unfold ClosedGraph
  infer_instance

theorem lookupComp_eq_some_mem {comps : List (String × RegValue)} {n : String}
    {v : RegValue} (h : lookupComp n comps = some v) : (n, v) ∈ comps := by
  induction comps with
  | nil => simp [lookupComp] at h
  | cons p rest ih =>
    obtain ⟨k, w⟩ := p
    by_cases hk : k = n
    · subst hk
      simp [lookupComp] at h
      simp [h]
    · simp [lookupComp, hk] at h
      exact List.mem_cons_of_mem _ (ih h)

theorem lookupComp_isSome_iff {comps : List (String × RegValue)} {n : String} :
    (lookupComp n comps).isSome = true ↔ n ∈ comps.map Prod.fst := by
  induction comps with
  | nil => simp [lookupComp]
  | cons p rest ih =>
    obtain ⟨k, w⟩ := p
    by_cases hk : k = n
    · subst hk; simp [lookupComp]
    · simp [lookupComp, hk, ih, Ne.symm hk]

theorem lookupComp_mem_nodup {comps : List (String × RegValue)} {n : String}
    {v : RegValue} (hnd : (comps.map Prod.fst).Nodup) (h : (n, v) ∈ comps) :
    lookupComp n comps = some v := by
  induction comps with
  | nil => simp at h
  | cons p rest ih =>
    obtain ⟨k, w⟩ := p
    simp only [List.map_cons, List.nodup_cons] at hnd
    rcases List.mem_cons.1 h with h1 | h1
    · obtain ⟨hk, hv⟩ := Prod.mk.injEq .. ▸ h1
      simp [lookupComp, hk.symm, hv]
    · have hk : k ≠ n := by
        intro hkn
        exact hnd.1 (hkn ▸ List.mem_map_of_mem Prod.fst h1)
      simp [lookupComp, hk, ih hnd.2 h1]

theorem mem_regKeysF {comps : List (String × RegValue)} {n : String} :
    n ∈ regKeysF comps ↔ (lookupComp n comps).isSome = true := by
  rw [regKeysF, List.mem_toFinset, lookupComp_isSome_iff]

/-- Postcondition of a successful `visit` call, as used for the calls on
the dependency lists and the top-level loop. -/
def OkP (d : String) (s s' : SortSt) : Prop :=
  s'.visiting = s.visiting ∧ s.visited ⊆ s'.visited ∧ d ∈ s'.visited ∧
  (∀ m ∈ s'.visited, m ∈ s.visited ∨ m ∉ s.visiting) ∧ ∃ t, s'.order = s.order ++ t

theorem visitList_ok {f : String → SortSt → Except String SortSt}
    (hf : ∀ d s s', f d s = Except.ok s' → OkP d s s') :
    ∀ ds s s', visitList f ds s = Except.ok s' →
      s'.visiting = s.visiting ∧ s.visited ⊆ s'.visited ∧ (∀ d ∈ ds, d ∈ s'.visited) ∧
      (∀ m ∈ s'.visited, m ∈ s.visited ∨ m ∉ s.visiting) ∧ ∃ t, s'.order = s.order ++ t := by
  intro ds
  induction ds with
  | nil =>
    intro s s' h
    simp only [visitList] at h
    cases h
    exact ⟨rfl, Finset.Subset.refl _, by simp, fun m hm => Or.inl hm, [], by simp⟩
  | cons d ds ih =>
    intro s s' h
    simp only [visitList] at h
    cases hfd : f d s with
    | error e => rw [hfd] at h; cases h
    | ok s1 =>
      rw [hfd] at h
      obtain ⟨hv1, hs1, hd1, hor1, t1, ht1⟩ := hf d s s1 hfd
      obtain ⟨hv2, hs2, hds2, hor2, t2, ht2⟩ := ih s1 s' h
      refine ⟨hv2.trans hv1, hs1.trans hs2, ?_, ?_, t1 ++ t2, by rw [ht2, ht1, List.append_assoc]⟩
      · intro x hx
        rcases List.mem_cons.1 hx with hx | hx
        · exact hx ▸ hs2 hd1
        · exact hds2 x hx
      · intro m hm
        rcases hor2 m hm with hm1 | hm1
        · rcases hor1 m hm1 with hm2 | hm2
          · exact Or.inl hm2
          · exact Or.inr hm2
        · exact Or.inr (hv1 ▸ hm1)

theorem visit_ok (comps : List (String × RegValue)) :
    ∀ fuel name s s', visit comps fuel name s = Except.ok s' → OkP name s s' := by
  intro fuel
  induction fuel with
  | zero => intro name s s' h; simp [visit] at h
  | succ fuel ih =>
    intro name s s' h
    simp only [visit] at h
    by_cases h1 : name ∈ s.visiting
    · rw [if_pos h1] at h; cases h
    · rw [if_neg h1] at h
      by_cases h2 : name ∈ s.visited
      · rw [if_pos h2] at h
        cases h
        exact ⟨rfl, Finset.Subset.refl _, h2, fun m hm => Or.inl hm, [], by simp⟩
      · rw [if_neg h2] at h
        cases hvl : visitList (visit comps fuel) (depsOf comps name)
            ⟨s.visited, insert name s.visiting, s.order⟩ with
        | error e => rw [hvl] at h; cases h
        | ok s2 =>
          rw [hvl] at h
          cases h
          obtain ⟨hv2, hs2, _, hor2, t, ht⟩ := visitList_ok ih _ _ _ hvl
          refine ⟨?_, ?_, Finset.mem_insert_self _ _, ?_, t ++ [name], ?_⟩
          · show s2.visiting.erase name = s.visiting
            rw [hv2]
            exact Finset.erase_insert h1
          · exact fun x hx => Finset.mem_insert_of_mem (hs2 hx)
          · intro m hm
            rcases Finset.mem_insert.1 hm with hm1 | hm1
            · exact Or.inr (hm1 ▸ h1)
            · rcases hor2 m hm1 with hm2 | hm2
              · exact Or.inl hm2
              · exact Or.inr fun hc => hm2 (Finset.mem_insert_of_mem hc)
          · show s2.order ++ [name] = s.order ++ (t ++ [name])
            rw [ht, List.append_assoc]

/-- Invariant of the traversal state: the order is duplicate-free, lists
exactly the done nodes, and respects declared dependencies. -/
def GoodSt (comps : List (String × RegValue)) (s : SortSt) : Prop :=
  s.order.Nodup ∧ (∀ n, n ∈ s.visited ↔ n ∈ s.order) ∧ DepsBefore comps s.order

theorem depsBefore_append {comps : List (String × RegValue)} {order : List String}
    {name : String} (h : DepsBefore comps order)
    (hdeps : ∀ d ∈ depsOf comps name, d ∈ order) :
    DepsBefore comps (order ++ [name]) := by
  intro i hi d hd
  rw [List.length_append, List.length_singleton] at hi
  by_cases hilt : i < order.length
  · rw [List.getElem_append_left hilt] at hd
    have hmem := h i hilt d hd
    rw [List.take_append_eq_append_take, Nat.sub_eq_zero_of_le (le_of_lt hilt),
      List.take_zero, List.append_nil]
    exact hmem
  · have hieq : i = order.length := by omega
    subst hieq
    rw [List.getElem_concat_length _ _ _ rfl] at hd
    rw [List.take_left']
    · exact hdeps d hd
    · rfl

/-- Generic preservation of a state predicate along `visitList`, with a
per-element side condition. -/
theorem visitList_pres {f : String → SortSt → Except String SortSt}
    (W : String → Prop) (Q : SortSt → Prop)
    (hfq : ∀ d s s', f d s = Except.ok s' → W d → Q s → Q s') :
    ∀ ds s s', (∀ d ∈ ds, W d) → visitList f ds s = Except.ok s' → Q s → Q s' := by
  intro ds
  induction ds with
  | nil =>
    intro s s' _ h hq
    simp only [visitList] at h
    cases h
    exact hq
  | cons d ds ih =>
    intro s s' hw h hq
    simp only [visitList] at h
    cases hfd : f d s with
    | error e => rw [hfd] at h; cases h
    | ok s1 =>
      rw [hfd] at h
      exact ih s1 s' (fun x hx => hw x (List.mem_cons_of_mem _ hx)) h
        (hfq d s s1 hfd (hw d (List.mem_cons_self d ds)) hq)

theorem visit_good (comps : List (String × RegValue)) :
    ∀ fuel name s s', visit comps fuel name s = Except.ok s' →
      GoodSt comps s → GoodSt comps s' := by
  intro fuel
  induction fuel with
  | zero => intro name s s' h; simp [visit] at h
  | succ fuel ih =>
    intro name s s' h hg
    simp only [visit] at h
    by_cases h1 : name ∈ s.visiting
    · rw [if_pos h1] at h; cases h
    · rw [if_neg h1] at h
      by_cases h2 : name ∈ s.visited
      · rw [if_pos h2] at h; cases h; exact hg
      · rw [if_neg h2] at h
        cases hvl : visitList (visit comps fuel) (depsOf comps name)
            ⟨s.visited, insert name s.visiting, s.order⟩ with
        | error e => rw [hvl] at h; cases h
        | ok s2 =>
          rw [hvl] at h
          cases h
          have hg2 : GoodSt comps s2 :=
            visitList_pres (fun _ => True) (GoodSt comps)
              (fun d t t' ht _ => ih d t t' ht) _ _ _ (fun _ _ => trivial) hvl hg
          obtain ⟨_, _, hds2, hor2, _, _⟩ := visitList_ok (visit_ok comps fuel) _ _ _ hvl
          have hnv : name ∉ s2.visited := by
            intro hc
            rcases hor2 name hc with hc1 | hc1
            · exact h2 hc1
            · exact hc1 (Finset.mem_insert_self _ _)
          have hno : name ∉ s2.order := fun hc => hnv ((hg2.2.1 name).2 hc)
          refine ⟨?_, ?_, ?_⟩
          · show (s2.order ++ [name]).Nodup
            rw [List.nodup_append]
            exact ⟨hg2.1, List.nodup_singleton _, fun a ha hb => by
              simp only [List.mem_singleton] at hb
              exact hno (hb ▸ ha)⟩
          · intro n
            show n ∈ insert name s2.visited ↔ n ∈ s2.order ++ [name]
            rw [Finset.mem_insert, List.mem_append, List.mem_singleton, hg2.2.1 n, or_comm]
          · exact depsBefore_append hg2.2.2
              (fun d hd => (hg2.2.1 d).1 (hds2 d hd))

theorem visitList_ok_ex {f : String → SortSt → Except String SortSt}
    (C : String → Finset String → Prop)
    (hfo : ∀ d s s', f d s = Except.ok s' → OkP d s s')
    (hfe : ∀ d s, C d s.visiting → ∃ s', f d s = Except.ok s') :
    ∀ ds s, (∀ d ∈ ds, C d s.visiting) → ∃ s', visitList f ds s = Except.ok s' := by
  intro ds
  induction ds with
  | nil => intro s _; exact ⟨s, rfl⟩
  | cons d ds ih =>
    intro s hC
    obtain ⟨s1, h1⟩ := hfe d s (hC d (List.mem_cons_self d ds))
    have hv : s1.visiting = s.visiting := (hfo d s s1 h1).1
    obtain ⟨s', h'⟩ := ih s1 (fun x hx => hv ▸ hC x (List.mem_cons_of_mem _ hx))
    exact ⟨s', by simp only [visitList, h1, h']⟩

theorem visit_ok_ex (comps : List (String × RegValue)) (rank : String → Nat)
    (hrank : ∀ n d, Dep comps n d → rank d < rank n) :
    ∀ R name fuel s, rank name < R →
      (regKeysF comps \ s.visiting).card + 2 ≤ fuel →
      (∀ v ∈ s.visiting, rank name < rank v) →
      ∃ s', visit comps fuel name s = Except.ok s' := by
  intro R
  induction R with
  | zero => intro name fuel s hR; omega
  | succ R ih =>
    intro name fuel s hR hfuel hstack
    obtain ⟨f, rfl⟩ : ∃ f, fuel = f + 1 := ⟨fuel - 1, by omega⟩
    simp only [visit]
    have h1 : name ∉ s.visiting := fun hmem => absurd (hstack name hmem) (lt_irrefl _)
    rw [if_neg h1]
    by_cases h2 : name ∈ s.visited
    · rw [if_pos h2]; exact ⟨s, rfl⟩
    rw [if_neg h2]
    cases hlk : lookupComp name comps with
    | none =>
      rw [show depsOf comps name = [] from by simp [depsOf, hlk]]
      exact ⟨_, rfl⟩
    | some v =>
      cases v with
      | plain =>
        rw [show depsOf comps name = [] from by simp [depsOf, hlk, valDeps]]
        exact ⟨_, rfl⟩
      | initComp c =>
        have hreg : name ∈ regKeysF comps :=
          mem_regKeysF.2 (by rw [hlk]; rfl)
        have hmemd : name ∈ regKeysF comps \ s.visiting := Finset.mem_sdiff.2 ⟨hreg, h1⟩
        have hcard : (regKeysF comps \ insert name s.visiting).card + 2 ≤ f := by
          rw [Finset.sdiff_insert, Finset.card_erase_of_mem hmemd]
          have hpos : 0 < (regKeysF comps \ s.visiting).card :=
            Finset.card_pos.2 ⟨name, hmemd⟩
          omega
        have hedge : ∀ d ∈ c.deps, rank d < rank name :=
          fun d hd => hrank name d ⟨c, hlk, hd⟩
        have hC : ∀ d ∈ c.deps,
            (fun d vis => rank d < R ∧ (regKeysF comps \ vis).card + 2 ≤ f ∧
              ∀ v ∈ vis, rank d < rank v) d
            (SortSt.mk s.visited (insert name s.visiting) s.order).visiting := by
          intro d hd
          refine ⟨by have := hedge d hd; omega, hcard, ?_⟩
          intro v hv
          rcases Finset.mem_insert.1 hv with hv1 | hv1
          · exact hv1 ▸ hedge d hd
          · exact (hedge d hd).trans (hstack v hv1)
        obtain ⟨s2, hvl⟩ := visitList_ok_ex
          (fun d vis => rank d < R ∧ (regKeysF comps \ vis).card + 2 ≤ f ∧
            ∀ v ∈ vis, rank d < rank v)
          (visit_ok comps f)
          (fun d t hc => ih d f t hc.1 hc.2.1 hc.2.2)
          c.deps ⟨s.visited, insert name s.visiting, s.order⟩ hC
        rw [show depsOf comps name = c.deps from by simp [depsOf, hlk, valDeps]]
        rw [hvl]
        exact ⟨_, rfl⟩

theorem visitList_err {f : String → SortSt → Except String SortSt}
    (C : String → Finset String → Prop) (E : String → Prop)
    (hfo : ∀ d s s', f d s = Except.ok s' → OkP d s s')
    (hfe : ∀ d s e, f d s = Except.error e → C d s.visiting → ∃ m, e = cycleMsg m ∧ E m) :
    ∀ ds s e, visitList f ds s = Except.error e → (∀ d ∈ ds, C d s.visiting) →
      ∃ m, e = cycleMsg m ∧ E m := by
  intro ds
  induction ds with
  | nil => intro s e h; simp [visitList] at h
  | cons d ds ih =>
    intro s e h hC
    simp only [visitList] at h
    cases hfd : f d s with
    | error e1 =>
      rw [hfd] at h
      cases h
      exact hfe d s e hfd (hC d (List.mem_cons_self d ds))
    | ok s1 =>
      rw [hfd] at h
      have hv : s1.visiting = s.visiting := (hfo d s s1 hfd).1
      exact ih s1 e h (fun x hx => hv ▸ hC x (List.mem_cons_of_mem _ hx))

theorem visit_err (comps : List (String × RegValue)) :
    ∀ fuel name s e, visit comps fuel name s = Except.error e →
      (regKeysF comps \ s.visiting).card + 2 ≤ fuel →
      (∀ v ∈ s.visiting, Relation.TransGen (Dep comps) v name) →
      ∃ m, e = cycleMsg m ∧ Relation.TransGen (Dep comps) m m := by
  intro fuel
  induction fuel with
  | zero => intro name s e _ hfuel; omega
  | succ f ih =>
    intro name s e h hfuel hstack
    simp only [visit] at h
    by_cases h1 : name ∈ s.visiting
    · rw [if_pos h1] at h
      cases h
      exact ⟨name, rfl, hstack name h1⟩
    · rw [if_neg h1] at h
      by_cases h2 : name ∈ s.visited
      · rw [if_pos h2] at h; cases h
      · rw [if_neg h2] at h
        cases hlk : lookupComp name comps with
        | none =>
          rw [show depsOf comps name = [] from by simp [depsOf, hlk]] at h
          simp only [visitList] at h
          cases h
        | some v =>
          cases v with
          | plain =>
            rw [show depsOf comps name = [] from by simp [depsOf, hlk, valDeps]] at h
            simp only [visitList] at h
            cases h
          | initComp c =>
            rw [show depsOf comps name = c.deps from by simp [depsOf, hlk, valDeps]] at h
            cases hvl : visitList (visit comps f) c.deps
                ⟨s.visited, insert name s.visiting, s.order⟩ with
            | ok s2 => rw [hvl] at h; cases h
            | error e1 =>
              rw [hvl] at h
              cases h
              have hreg : name ∈ regKeysF comps := mem_regKeysF.2 (by rw [hlk]; rfl)
              have hmemd : name ∈ regKeysF comps \ s.visiting :=
                Finset.mem_sdiff.2 ⟨hreg, h1⟩
              have hcard : (regKeysF comps \ insert name s.visiting).card + 2 ≤ f := by
                rw [Finset.sdiff_insert, Finset.card_erase_of_mem hmemd]
                have hpos : 0 < (regKeysF comps \ s.visiting).card :=
                  Finset.card_pos.2 ⟨name, hmemd⟩
                omega
              refine visitList_err
                (fun d vis => (regKeysF comps \ vis).card + 2 ≤ f ∧
                  ∀ v ∈ vis, Relation.TransGen (Dep comps) v d)
                (fun m => Relation.TransGen (Dep comps) m m)
                (visit_ok comps f)
                (fun d t e2 ht hc => ih d t e2 ht hc.1 hc.2)
                c.deps _ e hvl ?_
              intro d hd
              refine ⟨hcard, ?_⟩
              intro v hv
              rcases Finset.mem_insert.1 hv with hv1 | hv1
              · exact hv1 ▸ Relation.TransGen.single ⟨c, hlk, hd⟩
              · exact Relation.TransGen.tail (hstack v hv1) ⟨c, hlk, hd⟩

theorem visit_keys (comps : List (String × RegValue)) (hcl : ClosedGraph comps) :
    ∀ fuel name s s', visit comps fuel name s = Except.ok s' →
      (lookupComp name comps).isSome = true →
      (∀ n ∈ s.order, (lookupComp n comps).isSome = true) →
      ∀ n ∈ s'.order, (lookupComp n comps).isSome = true := by
  intro fuel
  induction fuel with
  | zero => intro name s s' h; simp [visit] at h
  | succ f ih =>
    intro name s s' h hreg hord
    simp only [visit] at h
    by_cases h1 : name ∈ s.visiting
    · rw [if_pos h1] at h; cases h
    · rw [if_neg h1] at h
      by_cases h2 : name ∈ s.visited
      · rw [if_pos h2] at h; cases h; exact hord
      · rw [if_neg h2] at h
        cases hlk : lookupComp name comps with
        | none => rw [hlk] at hreg; cases hreg
        | some v =>
          cases v with
          | plain =>
            rw [show depsOf comps name = [] from by simp [depsOf, hlk, valDeps]] at h
            simp only [visitList] at h
            cases h
            intro n hn
            rcases List.mem_append.1 hn with hn1 | hn1
            · exact hord n hn1
            · rw [List.mem_singleton.1 hn1]; exact hreg
          | initComp c =>
            rw [show depsOf comps name = c.deps from by simp [depsOf, hlk, valDeps]] at h
            cases hvl : visitList (visit comps f) c.deps
                ⟨s.visited, insert name s.visiting, s.order⟩ with
            | error e => rw [hvl] at h; cases h
            | ok s2 =>
              rw [hvl] at h
              cases h
              have hW : ∀ d ∈ c.deps, (lookupComp d comps).isSome = true := by
                intro d hd
                exact hcl (name, RegValue.initComp c) (lookupComp_eq_some_mem hlk) d hd
              have hs2 : ∀ n ∈ s2.order, (lookupComp n comps).isSome = true :=
                visitList_pres (fun d => (lookupComp d comps).isSome = true)
                  (fun t => ∀ n ∈ t.order, (lookupComp n comps).isSome = true)
                  (fun d t t' ht hw hq => ih d t t' ht hw hq) _ _ _ hW hvl hord
              intro n hn
              rcases List.mem_append.1 hn with hn1 | hn1
              · exact hs2 n hn1
              · rw [List.mem_singleton.1 hn1]; exact hreg

theorem visitList_congr {f g : String → SortSt → Except String SortSt}
    (h : ∀ d s, f d s = g d s) :
    ∀ ds s, visitList f ds s = visitList g ds s := by
  intro ds
  induction ds with
  | nil => intro s; rfl
  | cons d ds ih =>
    intro s
    simp only [visitList, h d s]
    cases g d s with
    | error e => rfl
    | ok s1 => exact ih s1

theorem visit_congr {c1 c2 : List (String × RegValue)}
    (hl : ∀ n, lookupComp n c1 = lookupComp n c2) :
    ∀ fuel name s, visit c1 fuel name s = visit c2 fuel name s := by
  intro fuel
  induction fuel with
  | zero => intro name s; rfl
  | succ f ih =>
    intro name s
    simp only [visit]
    rw [show depsOf c1 name = depsOf c2 name from by simp [depsOf, hl name]]
    rw [visitList_congr (fun d t => ih d t)]

theorem regKeysF_card_le (comps : List (String × RegValue)) :
    (regKeysF comps).card ≤ comps.length := by
  calc (regKeysF comps).card ≤ (comps.map Prod.fst).length := List.toFinset_card_le _
  _ = comps.length := List.length_map _ _

theorem topologicalSort_ok_ex (comps : List (String × RegValue)) (rank : String → Nat)
    (hrank : ∀ n d, Dep comps n d → rank d < rank n) :
    ∃ order, topologicalSort comps = Except.ok order := by
  obtain ⟨s, hs⟩ := visitList_ok_ex
    (fun d vis => (regKeysF comps \ vis).card + 2 ≤ comps.length + 2 ∧
      ∀ v ∈ vis, rank d < rank v)
    (visit_ok comps (comps.length + 2))
    (fun d t hc => visit_ok_ex comps rank hrank (rank d + 1) d (comps.length + 2) t
      (Nat.lt_succ_self _) hc.1 hc.2)
    (sortedNames comps) ⟨∅, ∅, []⟩
    (by
      intro d _
      constructor
      · have h1 : (regKeysF comps \ (∅ : Finset String)).card = (regKeysF comps).card := by
          rw [Finset.sdiff_empty]
        rw [h1]
        have := regKeysF_card_le comps
        omega
      · intro v hv
        simp at hv)
  exact ⟨s.order, by unfold topologicalSort; rw [hs]⟩

theorem topologicalSort_ok_props {comps : List (String × RegValue)} {order : List String}
    (h : topologicalSort comps = Except.ok order) :
    order.Nodup ∧ DepsBefore comps order ∧
      (∀ n, (lookupComp n comps).isSome = true → n ∈ order) := by
  unfold topologicalSort at h
  cases hvl : visitList (visit comps (comps.length + 2)) (sortedNames comps) ⟨∅, ∅, []⟩ with
  | error e => rw [hvl] at h; cases h
  | ok s =>
    rw [hvl] at h
    cases h
    have hg : GoodSt comps s :=
      visitList_pres (fun _ => True) (GoodSt comps)
        (fun d t t' ht _ => visit_good comps _ d t t' ht) _ _ _
        (fun _ _ => trivial) hvl
        ⟨List.nodup_nil, by simp, fun i hi => by simp at hi⟩
    obtain ⟨_, _, hall, _, _, _⟩ := visitList_ok (visit_ok comps _) _ _ _ hvl
    refine ⟨hg.1, hg.2.2, ?_⟩
    intro n hn
    have hmem : n ∈ comps.map Prod.fst := lookupComp_isSome_iff.1 hn
    have hsn : n ∈ sortedNames comps := by
      unfold sortedNames
      rw [List.mem_insertionSort]
      exact hmem
    exact (hg.2.1 n).1 (hall n hsn)

theorem topologicalSort_ok_keys {comps : List (String × RegValue)} {order : List String}
    (hcl : ClosedGraph comps) (h : topologicalSort comps = Except.ok order) :
    ∀ n ∈ order, (lookupComp n comps).isSome = true := by
  unfold topologicalSort at h
  cases hvl : visitList (visit comps (comps.length + 2)) (sortedNames comps) ⟨∅, ∅, []⟩ with
  | error e => rw [hvl] at h; cases h
  | ok s =>
    rw [hvl] at h
    cases h
    refine visitList_pres (fun d => (lookupComp d comps).isSome = true)
      (fun t => ∀ n ∈ t.order, (lookupComp n comps).isSome = true)
      (fun d t t' ht hw hq => visit_keys comps hcl _ d t t' ht hw hq) _ _ _
      ?_ hvl (fun n hn => by simp at hn)
    intro d hd
    rw [lookupComp_isSome_iff]
    unfold sortedNames at hd
    rw [List.mem_insertionSort] at hd
    exact hd

theorem topologicalSort_err_cycle {comps : List (String × RegValue)} {e : String}
    (h : topologicalSort comps = Except.error e) :
    ∃ m, e = cycleMsg m ∧ Relation.TransGen (Dep comps) m m := by
  unfold topologicalSort at h
  cases hvl : visitList (visit comps (comps.length + 2)) (sortedNames comps) ⟨∅, ∅, []⟩ with
  | ok s => rw [hvl] at h; cases h
  | error e1 =>
    rw [hvl] at h
    injection h with he
    subst he
    refine visitList_err
      (fun d vis => (regKeysF comps \ vis).card + 2 ≤ comps.length + 2 ∧
        ∀ v ∈ vis, Relation.TransGen (Dep comps) v d)
      (fun m => Relation.TransGen (Dep comps) m m)
      (visit_ok comps _)
      (fun d t e2 ht hc => visit_err comps _ d t e2 ht hc.1 hc.2)
      (sortedNames comps) _ e1 hvl ?_
    intro d _
    constructor
    · rw [Finset.sdiff_empty]
      have := regKeysF_card_le comps
      omega
    · intro v hv
      simp at hv

theorem topologicalSort_congr {c1 c2 : List (String × RegValue)}
    (hnd : (c1.map Prod.fst).Nodup) (hp : c1.Perm c2) :
    topologicalSort c1 = topologicalSort c2 := by
  have hnd2 : (c2.map Prod.fst).Nodup := ((hp.map Prod.fst).nodup_iff).1 hnd
  have hl : ∀ n, lookupComp n c1 = lookupComp n c2 := by
    intro n
    cases h1 : lookupComp n c1 with
    | some v =>
      exact (lookupComp_mem_nodup hnd2 (hp.subset (lookupComp_eq_some_mem h1))).symm
    | none =>
      cases h2 : lookupComp n c2 with
      | none => rfl
      | some w =>
        have : (n, w) ∈ c1 := hp.symm.subset (lookupComp_eq_some_mem h2)
        rw [lookupComp_mem_nodup hnd this] at h1
        cases h1
  have hsn : sortedNames c1 = sortedNames c2 := by
    refine List.eq_of_perm_of_sorted ?_ (List.sorted_insertionSort strLe _)
      (List.sorted_insertionSort strLe _)
    exact (List.perm_insertionSort strLe _).trans
      ((hp.map Prod.fst).trans (List.perm_insertionSort strLe _).symm)
  unfold topologicalSort
  rw [hsn, hp.length_eq, visitList_congr (visit_congr hl (c2.length + 2))]

theorem indexOf_lt_of_mem_take {d : String} :
    ∀ (l : List String) (i : Nat), d ∈ l.take i → l.indexOf d < i := by
  intro l
  induction l with
  | nil => intro i h; simp at h
  | cons a t ih =>
    intro i h
    cases i with
    | zero => simp at h
    | succ i =>
      rw [List.take_succ_cons] at h
      by_cases hda : d = a
      · subst hda
        rw [List.indexOf_cons_self]
        omega
      · rcases List.mem_cons.1 h with h1 | h1
        · exact absurd h1 hda
        · rw [List.indexOf_cons_ne _ (Ne.symm hda)]
          have := ih i h1
          omega

theorem topologicalSort_ok_rank {comps : List (String × RegValue)} {order : List String}
    (h : topologicalSort comps = Except.ok order) :
    ∀ n d, Dep comps n d → order.indexOf d < order.indexOf n := by
  obtain ⟨hnd, hdb, hmem⟩ := topologicalSort_ok_props h
  intro n d hdep
  obtain ⟨c, hc, hd⟩ := hdep
  have hn : n ∈ order := hmem n (by rw [hc]; rfl)
  have hi : order.indexOf n < order.length := List.indexOf_lt_length.2 hn
  have hdeps : d ∈ depsOf comps (order[order.indexOf n]) := by
    rw [List.getElem_indexOf hi]
    simp [depsOf, hc, valDeps, hd]
  exact indexOf_lt_of_mem_take order _ (hdb (order.indexOf n) hi d hdeps)

theorem transGen_rank_decrease {comps : List (String × RegValue)} {rank : String → Nat}
    (hrank : ∀ n d, Dep comps n d → rank d < rank n) :
    ∀ a b, Relation.TransGen (Dep comps) a b → rank b < rank a := by
  intro a b h
  induction h with
  | single h1 => exact hrank _ _ h1
  | tail _ h2 ih => exact lt_trans (hrank _ _ h2) ih

theorem topologicalSort_no_cycle {comps : List (String × RegValue)} {order : List String}
    (h : topologicalSort comps = Except.ok order) :
    ∀ m, ¬ Relation.TransGen (Dep comps) m m := by
  intro m hm
  exact absurd (transGen_rank_decrease (topologicalSort_ok_rank h) m m hm) (lt_irrefl _)

theorem initDeps_all_done {f : String → InitSt → InitSt × Option String} :
    ∀ ds (s : InitSt), (∀ d ∈ ds, d ∈ s.initDone) → initDeps f ds s = (s, none) := by
  intro ds
  induction ds with
  | nil => intro s _; rfl
  | cons d ds ih =>
    intro s h
    simp only [initDeps, if_pos (h d (List.mem_cons_self d ds))]
    exact ih s (fun x hx => h x (List.mem_cons_of_mem _ hx))

theorem initOne_succ_done {comps : List (String × RegValue)} {f : Nat} {name : String}
    {s : InitSt} (h : name ∈ s.initDone) :
    initOne comps (f + 1) name s = (s, none) := by
  simp only [initOne, if_pos h]

theorem initOne_succ_unknown {comps : List (String × RegValue)} {f : Nat} {name : String}
    {s : InitSt} (h1 : name ∉ s.initDone) (h2 : lookupComp name comps = none) :
    initOne comps (f + 1) name s = (s, some ("unknown component: " ++ name)) := by
  simp only [initOne, if_neg h1, h2]

theorem initOne_succ_run {comps : List (String × RegValue)} {f : Nat} {name : String}
    {s : InitSt} {c : Comp} (h1 : name ∉ s.initDone)
    (h2 : lookupComp name comps = some (RegValue.initComp c))
    (h3 : ∀ d ∈ c.deps, d ∈ s.initDone) :
    initOne comps (f + 1) name s =
      match c.initRes with
      | some e => (⟨s.initDone, s.trace ++ [name]⟩, some e)
      | none => (⟨insert name s.initDone, s.trace ++ [name]⟩, none) := by
  simp only [initOne, if_neg h1, h2, initDeps_all_done c.deps s h3]

theorem runOrder_chunk (comps : List (String × RegValue)) (f : Nat) :
    ∀ (l1 : List String) (I : Finset String) (tr rest : List String),
      (∀ j, (hj : j < l1.length) → ∃ c,
        lookupComp (l1[j]) comps = some (RegValue.initComp c) ∧ c.initRes = none ∧
        (∀ d ∈ c.deps, d ∈ I ∨ d ∈ l1.take j)) →
      (∀ j, (hj : j < l1.length) → l1[j] ∉ I ∧ l1[j] ∉ l1.take j) →
      runOrder comps (f + 1) (l1 ++ rest) ⟨I, tr⟩ =
        runOrder comps (f + 1) rest ⟨I ∪ l1.toFinset, tr ++ l1⟩ := by
  intro l1
  induction l1 with
  | nil =>
    intro I tr rest _ _
    simp
  | cons n l1 ih =>
    intro I tr rest hC hF
    obtain ⟨c, hc, hres, hdeps⟩ := hC 0 (by simp)
    have hn0 := hF 0 (by simp)
    simp only [List.getElem_cons_zero] at hc hn0
    have hd0 : ∀ d ∈ c.deps, d ∈ I := by
      intro d hd
      rcases hdeps d hd with h | h
      · exact h
      · simp at h
    show runOrder comps (f + 1) (n :: (l1 ++ rest)) ⟨I, tr⟩ = _
    simp only [runOrder]
    rw [initOne_succ_run hn0.1 hc hd0, hres]
    show runOrder comps (f + 1) (l1 ++ rest) ⟨insert n I, tr ++ [n]⟩ = _
    rw [ih (insert n I) (tr ++ [n]) rest ?_ ?_]
    · have hset : insert n I ∪ l1.toFinset = I ∪ (n :: l1).toFinset := by
        rw [List.toFinset_cons]
        rw [Finset.insert_union, Finset.union_insert]
      rw [hset, List.append_assoc]
      rfl
    · intro j hj
      obtain ⟨cj, hcj, hresj, hdepsj⟩ := hC (j + 1) (by simpa using Nat.succ_lt_succ hj)
      refine ⟨cj, by simpa using hcj, hresj, ?_⟩
      intro d hd
      rcases hdepsj d hd with h | h
      · exact Or.inl (Finset.mem_insert_of_mem h)
      · rw [List.take_succ_cons] at h
        rcases List.mem_cons.1 h with h1 | h1
        · exact Or.inl (h1 ▸ Finset.mem_insert_self _ _)
        · exact Or.inr h1
    · intro j hj
      obtain ⟨hI, hT⟩ := hF (j + 1) (by simpa using Nat.succ_lt_succ hj)
      rw [List.take_succ_cons] at hT
      simp only [List.getElem_cons_succ] at hI hT
      refine ⟨?_, fun hc2 => hT (List.mem_cons_of_mem _ hc2)⟩
      rw [Finset.mem_insert]
      rintro (h1 | h1)
      · exact hT (h1 ▸ List.mem_cons_self n _)
      · exact hI h1

/-- Monotonicity and trace discipline shared by `initOne`, `initDeps`
and `runOrder`: the initialized set only grows, and every newly traced
name was not initialized when the call started. -/
def InitPres (s s' : InitSt) : Prop :=
  s.initDone ⊆ s'.initDone ∧ ∃ t, s'.trace = s.trace ++ t ∧ ∀ m ∈ t, m ∉ s.initDone

theorem initPres_refl (s : InitSt) : InitPres s s :=
  ⟨Finset.Subset.refl _, [], by simp, by simp⟩

theorem initPres_trans {s1 s2 s3 : InitSt} (h1 : InitPres s1 s2) (h2 : InitPres s2 s3) :
    InitPres s1 s3 := by
  obtain ⟨hsub1, t1, ht1, hm1⟩ := h1
  obtain ⟨hsub2, t2, ht2, hm2⟩ := h2
  refine ⟨hsub1.trans hsub2, t1 ++ t2, by rw [ht2, ht1, List.append_assoc], ?_⟩
  intro m hm
  rcases List.mem_append.1 hm with h | h
  · exact hm1 m h
  · exact fun hc => hm2 m h (hsub1 hc)

theorem initDeps_pres {f : String → InitSt → InitSt × Option String}
    (hf : ∀ d s, InitPres s (f d s).1) :
    ∀ ds s, InitPres s (initDeps f ds s).1 := by
  intro ds
  induction ds with
  | nil => intro s; exact initPres_refl s
  | cons d ds ih =>
    intro s
    simp only [initDeps]
    by_cases h : d ∈ s.initDone
    · rw [if_pos h]; exact ih s
    · rw [if_neg h]
      cases hfd : f d s with
      | mk s1 res =>
        have hp1 : InitPres s s1 := by rw [← show (f d s).1 = s1 from by rw [hfd]]; exact hf d s
        cases res with
        | some e => exact hp1
        | none => exact initPres_trans hp1 (ih s1)

theorem initOne_succ_plain {comps : List (String × RegValue)} {f : Nat} {name : String}
    {s : InitSt} (h1 : name ∉ s.initDone) (h2 : lookupComp name comps = some RegValue.plain) :
    initOne comps (f + 1) name s = (s, some (name ++ " does not implement Initializer")) := by
  simp only [initOne, if_neg h1, h2]

theorem initOne_succ_comp {comps : List (String × RegValue)} {f : Nat} {name : String}
    {s : InitSt} {c : Comp} (h1 : name ∉ s.initDone)
    (h2 : lookupComp name comps = some (RegValue.initComp c)) :
    initOne comps (f + 1) name s =
      match initDeps (initOne comps f) c.deps s with
      | (s', some e) => (s', some e)
      | (s', none) =>
        match c.initRes with
        | some e => (⟨s'.initDone, s'.trace ++ [name]⟩, some e)
        | none => (⟨insert name s'.initDone, s'.trace ++ [name]⟩, none) := by
  simp only [initOne, if_neg h1, h2]

theorem initOne_pres (comps : List (String × RegValue)) :
    ∀ fuel name s, InitPres s (initOne comps fuel name s).1 := by
  intro fuel
  induction fuel with
  | zero => intro name s; exact initPres_refl s
  | succ f ih =>
    intro name s
    by_cases h1 : name ∈ s.initDone
    · rw [initOne_succ_done h1]; exact initPres_refl s
    · cases hlk : lookupComp name comps with
      | none => rw [initOne_succ_unknown h1 hlk]; exact initPres_refl s
      | some v =>
        cases v with
        | plain => rw [initOne_succ_plain h1 hlk]; exact initPres_refl s
        | initComp c =>
          rw [initOne_succ_comp h1 hlk]
          cases hdep : initDeps (initOne comps f) c.deps s with
          | mk s' res =>
            have hp1 : InitPres s s' := by
              have hq := initDeps_pres (fun d t => ih d t) c.deps s
              rw [hdep] at hq
              exact hq
            obtain ⟨hsub, t, ht, hmt⟩ := hp1
            cases res with
            | some e => exact ⟨hsub, t, ht, hmt⟩
            | none =>
              cases c.initRes with
              | some e =>
                refine ⟨hsub, t ++ [name], ?_, ?_⟩
                · show s'.trace ++ [name] = s.trace ++ (t ++ [name])
                  rw [ht, List.append_assoc]
                · intro m hm
                  rcases List.mem_append.1 hm with h | h
                  · exact hmt m h
                  · rw [List.mem_singleton.1 h]; exact h1
              | none =>
                refine ⟨hsub.trans (Finset.subset_insert _ _), t ++ [name], ?_, ?_⟩
                · show s'.trace ++ [name] = s.trace ++ (t ++ [name])
                  rw [ht, List.append_assoc]
                · intro m hm
                  rcases List.mem_append.1 hm with h | h
                  · exact hmt m h
                  · rw [List.mem_singleton.1 h]; exact h1

theorem runOrder_pres (comps : List (String × RegValue)) (fuel : Nat) :
    ∀ ns s, InitPres s (runOrder comps fuel ns s).1 := by
  intro ns
  induction ns with
  | nil => intro s; exact initPres_refl s
  | cons n ns ih =>
    intro s
    simp only [runOrder]
    cases hio : initOne comps fuel n s with
    | mk s1 res =>
      have hp1 : InitPres s s1 := by
        have hq := initOne_pres comps fuel n s
        rw [hio] at hq
        exact hq
      cases res with
      | some e => exact hp1
      | none => exact initPres_trans hp1 (ih s1)

theorem initOne_ok_mem (comps : List (String × RegValue)) :
    ∀ fuel name s s', initOne comps fuel name s = (s', none) → name ∈ s'.initDone := by
  intro fuel
  cases fuel with
  | zero => intro name s s' h; cases h
  | succ f =>
    intro name s s' h
    by_cases h1 : name ∈ s.initDone
    · rw [initOne_succ_done h1] at h
      cases h
      exact h1
    · cases hlk : lookupComp name comps with
      | none => rw [initOne_succ_unknown h1 hlk] at h; cases h
      | some v =>
        cases v with
        | plain => rw [initOne_succ_plain h1 hlk] at h; cases h
        | initComp c =>
          rw [initOne_succ_comp h1 hlk] at h
          cases hdep : initDeps (initOne comps f) c.deps s with
          | mk s1 res =>
            rw [hdep] at h
            cases res with
            | some e => cases h
            | none =>
              cases hres : c.initRes with
              | some e => rw [hres] at h; cases h
              | none =>
                rw [hres] at h
                cases h
                exact Finset.mem_insert_self _ _

theorem runOrder_ok_mem (comps : List (String × RegValue)) (fuel : Nat) :
    ∀ ns s s', runOrder comps fuel ns s = (s', none) → ∀ n ∈ ns, n ∈ s'.initDone := by
  intro ns
  induction ns with
  | nil => intro s s' _ n hn; simp at hn
  | cons x ns ih =>
    intro s s' h n hn
    simp only [runOrder] at h
    cases hio : initOne comps fuel x s with
    | mk s1 res =>
      rw [hio] at h
      cases res with
      | some e => cases h
      | none =>
        rcases List.mem_cons.1 hn with hn1 | hn1
        · subst hn1
          have h1 : n ∈ s1.initDone := initOne_ok_mem comps fuel n s s1 hio
          have hsub := (runOrder_pres comps fuel ns s1).1
          have h' : runOrder comps fuel ns s1 = (s', none) := h
          rw [h'] at hsub
          exact hsub h1
        · exact ih s1 s' h n hn1

theorem runOrder_all_done (comps : List (String × RegValue)) (f : Nat) :
    ∀ ns s, (∀ n ∈ ns, n ∈ s.initDone) →
      runOrder comps (f + 1) ns s = (s, none) := by
  intro ns
  induction ns with
  | nil => intro s _; rfl
  | cons n ns ih =>
    intro s h
    simp only [runOrder]
    rw [initOne_succ_done (h n (List.mem_cons_self n ns))]
    exact ih s (fun x hx => h x (List.mem_cons_of_mem _ hx))

theorem runOrder_err_shape (comps : List (String × RegValue)) (fuel : Nat) :
    ∀ ns s s' e, runOrder comps fuel ns s = (s', some e) →
      ∃ n ∈ ns, ∃ e0, e = "initializing " ++ n ++ ": " ++ e0 := by
  intro ns
  induction ns with
  | nil => intro s s' e h; cases h
  | cons n ns ih =>
    intro s s' e h
    simp only [runOrder] at h
    cases hio : initOne comps fuel n s with
    | mk s1 res =>
      rw [hio] at h
      cases res with
      | some e0 =>
        cases h
        exact ⟨n, List.mem_cons_self n ns, e0, rfl⟩
      | none =>
        obtain ⟨m, hm, e0, he⟩ := ih s1 s' e h
        exact ⟨m, List.mem_cons_of_mem _ hm, e0, he⟩

theorem shutdownWalk_no_fail (comps : List (String × RegValue)) :
    ∀ ns tr, (∀ n ∈ ns, ∀ e, shutRes comps n ≠ some (some e)) →
      shutdownWalk comps ns tr =
        (tr ++ (ns.filter (fun n => (shutRes comps n).isSome)).map SEvent.comp, none) := by
  intro ns
  induction ns with
  | nil => intro tr _; simp [shutdownWalk]
  | cons n ns ih =>
    intro tr h
    simp only [shutdownWalk]
    cases hs : shutRes comps n with
    | none =>
      rw [ih tr (fun x hx => h x (List.mem_cons_of_mem _ hx))]
      simp [List.filter_cons, hs]
    | some res =>
      cases res with
      | some e => exact absurd hs (h n (List.mem_cons_self n ns) e)
      | none =>
        rw [ih (tr ++ [SEvent.comp n]) (fun x hx => h x (List.mem_cons_of_mem _ hx))]
        simp [List.filter_cons, hs]

theorem shutdownWalk_fail (comps : List (String × RegValue)) {m : String} {e : String}
    (hm : shutRes comps m = some (some e)) :
    ∀ l1 l2 tr, (∀ n ∈ l1, ∀ e0, shutRes comps n ≠ some (some e0)) →
      shutdownWalk comps (l1 ++ m :: l2) tr =
        (tr ++ (l1.filter (fun n => (shutRes comps n).isSome)).map SEvent.comp
            ++ [SEvent.comp m],
          some ("shutting down " ++ m ++ ": " ++ e)) := by
  intro l1
  induction l1 with
  | nil =>
    intro l2 tr _
    simp only [List.nil_append, shutdownWalk, hm]
    simp
  | cons n l1 ih =>
    intro l2 tr h
    simp only [List.cons_append, shutdownWalk]
    cases hs : shutRes comps n with
    | none =>
      show shutdownWalk comps (l1 ++ m :: l2) tr = _
      rw [ih l2 tr (fun x hx => h x (List.mem_cons_of_mem _ hx))]
      simp [List.filter_cons, hs]
    | some res =>
      cases res with
      | some e0 => exact absurd hs (h n (List.mem_cons_self n l1) e0)
      | none =>
        show shutdownWalk comps (l1 ++ m :: l2) (tr ++ [SEvent.comp n]) = _
        rw [ih l2 (tr ++ [SEvent.comp n]) (fun x hx => h x (List.mem_cons_of_mem _ hx))]
        simp [List.filter_cons, hs]

theorem shutdownWalk_err_shape (comps : List (String × RegValue)) :
    ∀ ns tr tr' e, shutdownWalk comps ns tr = (tr', some e) →
      ∃ n ∈ ns, ∃ e0, e = "shutting down " ++ n ++ ": " ++ e0 := by
  intro ns
  induction ns with
  | nil => intro tr tr' e h; cases h
  | cons n ns ih =>
    intro tr tr' e h
    simp only [shutdownWalk] at h
    cases hs : shutRes comps n with
    | none =>
      rw [hs] at h
      obtain ⟨x, hx, e0, he⟩ := ih tr tr' e h
      exact ⟨x, List.mem_cons_of_mem _ hx, e0, he⟩
    | some res =>
      rw [hs] at h
      cases res with
      | some e0 =>
        cases h
        exact ⟨n, List.mem_cons_self n ns, e0, rfl⟩
      | none =>
        obtain ⟨x, hx, e0, he⟩ := ih _ tr' e h
        exact ⟨x, List.mem_cons_of_mem _ hx, e0, he⟩

theorem shutdownWalk_events (comps : List (String × RegValue)) :
    ∀ ns tr, ∃ t, (shutdownWalk comps ns tr).1 = tr ++ t ∧
      ∀ ev ∈ t, ∃ n, ev = SEvent.comp n := by
  intro ns
  induction ns with
  | nil => intro tr; exact ⟨[], by simp [shutdownWalk], by simp⟩
  | cons n ns ih =>
    intro tr
    simp only [shutdownWalk]
    cases hs : shutRes comps n with
    | none => exact ih tr
    | some res =>
      cases res with
      | some e => exact ⟨[SEvent.comp n], by simp, by simp⟩
      | none =>
        obtain ⟨t, ht, hc⟩ := ih (tr ++ [SEvent.comp n])
        refine ⟨SEvent.comp n :: t, ?_, ?_⟩
        · rw [ht, List.append_assoc]
          rfl
        · intro ev hev
          rcases List.mem_cons.1 hev with h1 | h1
          · exact ⟨n, h1⟩
          · exact hc ev h1

theorem runHooks_spec :
    ∀ (hs : List (Option String)) (i : Nat) (tr : List SEvent),
      runHooks hs i tr =
        (tr ++ (List.range' i (hookRunCount hs)).map SEvent.hook, firstHookErr hs) := by
  intro hs
  induction hs with
  | nil => intro i tr; simp [runHooks, hookRunCount, firstHookErr]
  | cons h hs ih =>
    intro i tr
    cases h with
    | some e =>
      simp [runHooks, hookRunCount, firstHookErr, List.range'_succ]
    | none =>
      simp only [runHooks, hookRunCount, firstHookErr]
      rw [ih (i + 1) (tr ++ [SEvent.hook i])]
      rw [List.range'_succ, List.map_cons, List.append_assoc]
      rfl

theorem checkHealthAux_spec :
    ∀ (cs : List (String × HChecker)) (t t0 : Nat), t0 ≤ t →
      (checkHealthAux cs t).map Prod.fst = cs.map Prod.fst ∧
      ∀ i, (hi : i < (checkHealthAux cs t).length) → (hi2 : i < cs.length) →
        ((checkHealthAux cs t)[i]).2.status = (cs[i]).2.status ∧
        ((checkHealthAux cs t)[i]).2.errMsg = (cs[i]).2.errMsg ∧
        t0 ≤ ((checkHealthAux cs t)[i]).2.time := by
  intro cs
  induction cs with
  | nil =>
    intro t t0 _
    refine ⟨rfl, ?_⟩
    intro i hi
    simp [checkHealthAux] at hi
  | cons p rest ih =>
    intro t t0 ht0
    obtain ⟨n, ch⟩ := p
    obtain ⟨ihm, ihp⟩ := ih (t + ch.dur) t0 (by omega)
    refine ⟨?_, ?_⟩
    · simp only [checkHealthAux, List.map_cons, ihm]
    · intro i hi hi2
      cases i with
      | zero => exact ⟨rfl, rfl, by show t0 ≤ t + ch.dur; omega⟩
      | succ i =>
        simp only [checkHealthAux, List.getElem_cons_succ]
        simp only [checkHealthAux, List.length_cons] at hi hi2
        exact ihp i (by omega) (by omega)

theorem first_violation {P : String → Prop} [DecidablePred P] :
    ∀ (l : List String), (∃ x ∈ l, ¬ P x) →
      ∃ l1 m l2, l = l1 ++ m :: l2 ∧ (∀ x ∈ l1, P x) ∧ ¬ P m := by
  intro l
  induction l with
  | nil => intro h; simp at h
  | cons a t ih =>
    intro h
    by_cases hPa : P a
    · have ht : ∃ x ∈ t, ¬ P x := by
        obtain ⟨x, hx, hnx⟩ := h
        rcases List.mem_cons.1 hx with h1 | h1
        · exact absurd hPa (h1 ▸ hnx)
        · exact ⟨x, h1, hnx⟩
      obtain ⟨l1, m, l2, heq, hall, hm⟩ := ih ht
      exact ⟨a :: l1, m, l2, by rw [heq]; rfl, by
        intro x hx
        rcases List.mem_cons.1 hx with h1 | h1
        · exact h1 ▸ hPa
        · exact hall x h1, hm⟩
    · exact ⟨[], a, t, rfl, by simp, hPa⟩

theorem nodup_getElem_not_mem_take {l : List String} (hnd : l.Nodup) :
    ∀ j, (hj : j < l.length) → l[j] ∉ l.take j := by
  intro j hj hmem
  have h1 : l.indexOf (l[j]) < j := indexOf_lt_of_mem_take l j hmem
  have h2 : l.indexOf (l[j]) < l.length := by omega
  have h3 : l[l.indexOf (l[j])] = l[j] := List.getElem_indexOf h2
  have h4 := (@List.Nodup.getElem_inj_iff _ l hnd _ h2 j hj).1 h3
  omega

/-- Concrete fixtures used by witnesses and counterexamples. -/
def compA : Comp := ⟨"a", [], none, some none⟩

def compB : Comp := ⟨"b", ["a"], none, some none⟩

def exReg : Registry :=
  ⟨[("a", RegValue.initComp compA), ("b", RegValue.initComp compB)], ∅, [], []⟩

def exRegRev : Registry :=
  ⟨[("b", RegValue.initComp compB), ("a", RegValue.initComp compA)], ∅, [], []⟩

def cycReg : Registry :=
  ⟨[("a", RegValue.initComp ⟨"a", ["b"], none, none⟩),
    ("b", RegValue.initComp ⟨"b", ["a"], none, none⟩)], ∅, [], []⟩

def unkReg : Registry :=
  ⟨[("a", RegValue.initComp compA),
    ("b", RegValue.initComp ⟨"b", ["zzz"], none, none⟩)], ∅, [], []⟩

/-- Claim C1: for every acyclic (witnessed by a rank function),
dependency-closed registration set with duplicate-free keys,
`topologicalSort` succeeds and returns a permutation of the registered
names in which every declared dependency of a component occurs strictly
before that component; moreover the result depends only on the
registration set: any permutation of the component list (in particular,
a different registration order, or running the sort twice) yields the
identical order, because names are visited in lexicographic order. -/
theorem computeOrder_correct_deterministic
    (r r' : Registry) (rank : String → Nat)
    (hnd : (r.components.map Prod.fst).Nodup)
    (hcl : ClosedGraph r.components)
    (hacyc : ∀ n d, Dep r.components n d → rank d < rank n)
    (hperm : r.components.Perm r'.components) :
    ∃ order, topologicalSort r.components = Except.ok order ∧
      order.Perm (r.components.map Prod.fst) ∧
      DepsBefore r.components order ∧
      topologicalSort r'.components = Except.ok order := by
  obtain ⟨order, hok⟩ := topologicalSort_ok_ex r.components rank hacyc
  obtain ⟨hnodup, hdb, hmem⟩ := topologicalSort_ok_props hok
  have hkeys := topologicalSort_ok_keys hcl hok
  refine ⟨order, hok, ?_, hdb, ?_⟩
  · refine (List.perm_ext_iff_of_nodup hnodup hnd).2 ?_
    intro n
    constructor
    · intro hn
      exact lookupComp_isSome_iff.1 (hkeys n hn)
    · intro hn
      exact hmem n (lookupComp_isSome_iff.2 hn)
  · rw [← topologicalSort_congr hnd hperm]
    exact hok

/-- Witness for C1: components `a` (no deps) and `b` (dep on `a`),
registered in the two possible orders, both sort to `["a", "b"]`. -/
theorem computeOrder_correct_deterministic_witness :
    ∃ order, topologicalSort exReg.components = Except.ok order ∧
      order.Perm (exReg.components.map Prod.fst) ∧
      DepsBefore exReg.components order ∧
      topologicalSort exRegRev.components = Except.ok order := by
  refine computeOrder_correct_deterministic exReg exRegRev
    (fun s => if s = "b" then 1 else 0) (by decide) (by decide) ?_ (List.Perm.swap _ _ _)
  intro n d hdep
  obtain ⟨c, hc, hd⟩ := hdep
  simp only [exReg, lookupComp] at hc
  by_cases h1 : n = "a"
  · subst h1
    simp only [if_pos rfl] at hc
    injection hc with hc2
    injection hc2 with hc3
    rw [← hc3] at hd
    simp [compA] at hd
  · by_cases h2 : n = "b"
    · subst h2
      rw [if_neg (by decide), if_pos rfl] at hc
      injection hc with hc2
      injection hc2 with hc3
      rw [← hc3] at hd
      simp only [compB, List.mem_singleton] at hd
      subst hd
      decide
    · rw [if_neg (fun hcon => h1 hcon.symm), if_neg (fun hcon => h2 hcon.symm)] at hc
      cases hc

/-- Claim C3: whenever the registered dependency graph contains a cycle,
`topologicalSort` fails with the circular-dependency error naming a node
that lies on a cycle, and `Initialize` returns that error unchanged,
invoking no `Init()` action (empty invocation trace) and leaving the
registry untouched. -/
theorem cycle_error_aborts_initAll
    (r : Registry) (c : String)
    (hcyc : Relation.TransGen (Dep r.components) c c) :
    ∃ m, topologicalSort r.components = Except.error (cycleMsg m) ∧
      Relation.TransGen (Dep r.components) m m ∧
      initAll r = (r, [], some (cycleMsg m)) := by
  cases hts : topologicalSort r.components with
  | ok order => exact absurd hcyc (topologicalSort_no_cycle hts c)
  | error e =>
    obtain ⟨m, he, hm⟩ := topologicalSort_err_cycle hts
    subst he
    refine ⟨m, rfl, hm, ?_⟩
    unfold initAll
    rw [hts]

/-- Counterexample to claim C2: with `a` (no dependencies, succeeding
init) and `b` (dependency on the unregistered name `zzz`),
`topologicalSort` does not fail — the unknown name surfaces only during
the init walk — and `Initialize` invokes `a`'s init action (trace
`["a"]`) before failing, contradicting both "surfaces at ordering
(resolution) time" and "invoking no component's init action". -/
theorem unknownDep_at_init_time_counterexample :
    topologicalSort unkReg.components = Except.ok ["a", "zzz", "b"] ∧
    (initAll unkReg).2.1 = ["a"] ∧
    (initAll unkReg).2.2 = some ("initializing zzz: unknown component: zzz") :=
  ⟨rfl, rfl, rfl⟩

/-- Claim C2 as amended: for an acyclic registration set (duplicate-free
keys, all registered values implementing `Initializer` with succeeding
inits, fresh registry) in which some component depends on an
unregistered name, `topologicalSort` still succeeds — the unregistered
name is simply inserted into the order — and `Initialize` fails at
init-walk time with the unknown-component error for the first
unregistered name `m` of the order, after invoking the init actions of
exactly the (registered) components that precede `m` in the order. -/
theorem initAll_ok_eq {r : Registry} {order : List String} {s : InitSt} {err : Option String}
    (h : topologicalSort r.components = Except.ok order)
    (h2 : runOrder r.components (r.components.length + 2) order ⟨r.initDone, []⟩ = (s, err)) :
    initAll r = ({ r with initOrder := order, initDone := s.initDone }, s.trace, err) := by
  unfold initAll
  rw [h]
  show (match runOrder r.components (r.components.length + 2) order ⟨r.initDone, []⟩ with
    | (s, err) => ({ r with initOrder := order, initDone := s.initDone }, s.trace, err)) = _
  rw [h2]

theorem initAll_unknown_dep
    (r : Registry) (rank : String → Nat)
    (_hnd : (r.components.map Prod.fst).Nodup)
    (hwf : ∀ p ∈ r.components, ∃ c, p.2 = RegValue.initComp c ∧ c.initRes = none)
    (hacyc : ∀ n d, Dep r.components n d → rank d < rank n)
    (hdone : r.initDone = ∅)
    (n0 d0 : String) (hud : Dep r.components n0 d0)
    (hdun : lookupComp d0 r.components = none) :
    ∃ order l1 m l2,
      topologicalSort r.components = Except.ok order ∧
      order = l1 ++ m :: l2 ∧
      (∀ x ∈ l1, (lookupComp x r.components).isSome = true) ∧
      lookupComp m r.components = none ∧
      initAll r = ({ r with initOrder := order, initDone := l1.toFinset }, l1,
        some ("initializing " ++ m ++ ": " ++ ("unknown component: " ++ m))) := by
  obtain ⟨order, hok⟩ := topologicalSort_ok_ex r.components rank hacyc
  obtain ⟨hnodup, hdb, hmem⟩ := topologicalSort_ok_props hok
  obtain ⟨c0, hc0, hd0c⟩ := hud
  have hn0 : n0 ∈ order := hmem n0 (by rw [hc0]; rfl)
  have hidx : order.indexOf n0 < order.length := List.indexOf_lt_length.2 hn0
  have hd0in : d0 ∈ order := by
    have hdep : d0 ∈ depsOf r.components (order[order.indexOf n0]) := by
      rw [List.getElem_indexOf hidx]
      simp [depsOf, hc0, valDeps, hd0c]
    exact List.mem_of_mem_take (hdb (order.indexOf n0) hidx d0 hdep)
  obtain ⟨l1, m, l2, heq, hall, hm⟩ :=
    @first_violation (fun x => (lookupComp x r.components).isSome = true) (fun _ => inferInstance) order
      ⟨d0, hd0in, by
        intro hc
        have hc2 : (lookupComp d0 r.components).isSome = true := hc
        rw [hdun] at hc2
        cases hc2⟩
  subst heq
  have hmnone : lookupComp m r.components = none := by
    cases hx : lookupComp m r.components with
    | none => rfl
    | some v => exact absurd (by rw [hx]; rfl) hm
  have hl1nd : l1.Nodup := (List.nodup_append.1 hnodup).1
  have htakel1 : ∀ j, j ≤ l1.length → (l1 ++ m :: l2).take j = l1.take j := by
    intro j hj
    rw [List.take_append_eq_append_take, Nat.sub_eq_zero_of_le hj,
      List.take_zero, List.append_nil]
  have hchunk := runOrder_chunk r.components (r.components.length + 1) l1 ∅ [] (m :: l2)
    (by
      intro j hj
      have hx : l1[j] ∈ l1 := List.getElem_mem hj
      have hreg := hall _ hx
      cases hlx : lookupComp (l1[j]) r.components with
      | none => rw [hlx] at hreg; cases hreg
      | some v =>
        obtain ⟨cj, hcj, hresj⟩ := hwf _ (lookupComp_eq_some_mem hlx)
        have hcj2 : v = RegValue.initComp cj := hcj
        subst hcj2
        refine ⟨cj, rfl, hresj, ?_⟩
        intro d hd
        refine Or.inr ?_
        have hjo : j < (l1 ++ m :: l2).length := by
          rw [List.length_append]
          simp only [List.length_cons]
          omega
        have hdep : d ∈ depsOf r.components ((l1 ++ m :: l2)[j]) := by
          rw [List.getElem_append_left hj]
          simp [depsOf, hlx, valDeps, hd]
        have hmem2 := hdb j hjo d hdep
        rw [htakel1 j (by omega)] at hmem2
        exact hmem2)
    (by
      intro j hj
      exact ⟨by simp, nodup_getElem_not_mem_take hl1nd j hj⟩)
  have hml1 : m ∉ l1 := by
    intro hc
    have hic := hall m hc
    rw [hmnone] at hic
    cases hic
  refine ⟨l1 ++ m :: l2, l1, m, l2, hok, rfl, hall, hmnone, ?_⟩
  have hm2 : m ∉ (⟨∅ ∪ l1.toFinset, [] ++ l1⟩ : InitSt).initDone := by
    simp only [Finset.empty_union, List.mem_toFinset]
    exact hml1
  have hrun : runOrder r.components (r.components.length + 2) (l1 ++ m :: l2)
      ⟨r.initDone, []⟩ =
      (⟨l1.toFinset, l1⟩, some ("initializing " ++ m ++ ": " ++ ("unknown component: " ++ m))) := by
    rw [hdone]
    rw [show r.components.length + 2 = (r.components.length + 1) + 1 from rfl]
    rw [hchunk]
    simp only [Finset.empty_union, List.nil_append]
    simp only [runOrder]
    rw [initOne_succ_unknown (by simpa using hml1) hmnone]
  exact initAll_ok_eq hok hrun

/-- Witness for C2 (amended): the registry of the counterexample,
`a` plus `b → zzz`. -/
theorem initAll_unknown_dep_witness :
    ∃ order l1 m l2,
      topologicalSort unkReg.components = Except.ok order ∧
      order = l1 ++ m :: l2 ∧
      (∀ x ∈ l1, (lookupComp x unkReg.components).isSome = true) ∧
      lookupComp m unkReg.components = none ∧
      initAll unkReg = ({ unkReg with initOrder := order, initDone := l1.toFinset }, l1,
        some ("initializing " ++ m ++ ": " ++ ("unknown component: " ++ m))) := by
  refine initAll_unknown_dep unkReg (fun s => if s = "b" then 1 else 0)
    (by decide) ?_ ?_ rfl "b" "zzz" ?_ (by decide)
  · intro p hp
    simp only [unkReg, List.mem_cons, List.mem_singleton] at hp
    rcases hp with hp | hp | hp
    · exact ⟨compA, by rw [hp], rfl⟩
    · exact ⟨⟨"b", ["zzz"], none, none⟩, by rw [hp], rfl⟩
    · simp at hp
  · intro n d hdep
    obtain ⟨c, hc, hd⟩ := hdep
    simp only [unkReg, lookupComp] at hc
    by_cases h1 : n = "a"
    · subst h1
      simp only [if_pos rfl] at hc
      injection hc with hc2
      injection hc2 with hc3
      rw [← hc3] at hd
      simp [compA] at hd
    · by_cases h2 : n = "b"
      · subst h2
        rw [if_neg (by decide), if_pos rfl] at hc
        injection hc with hc2
        injection hc2 with hc3
        rw [← hc3] at hd
        simp only [List.mem_singleton] at hd
        subst hd
        decide
      · rw [if_neg (fun hcon => h1 hcon.symm), if_neg (fun hcon => h2 hcon.symm)] at hc
        cases hc
  · exact ⟨⟨"b", ["zzz"], none, none⟩, rfl, by simp⟩

/-- Claim C4: on a registration set whose sort succeeds, with a fresh
registry, if the components at positions `0..k-1` of the computed order
all have succeeding inits and the component at position `k` has a
failing init, then `Initialize` invokes the init actions of exactly the
first `k+1` positions (trace `order.take (k+1)`: all predecessors plus
the attempt at the failing one), aborts with an error naming the failing
component, does not invoke any later component's init, and leaves the
predecessors marked initialized (`initDone = (order.take k).toFinset`,
no rollback). -/
theorem initAll_first_init_failure
    (r : Registry) (order : List String)
    (hsort : topologicalSort r.components = Except.ok order)
    (hdone : r.initDone = ∅)
    (k : Nat) (hk : k < order.length)
    (ck : Comp) (hck : lookupComp (order[k]) r.components = some (RegValue.initComp ck))
    (e : String) (hfail : ck.initRes = some e)
    (hpre : ∀ j, (hj : j < k) → ∃ c,
      lookupComp (order[j]) r.components = some (RegValue.initComp c) ∧
      c.initRes = none) :
    initAll r = ({ r with initOrder := order, initDone := (order.take k).toFinset },
      order.take (k + 1),
      some ("initializing " ++ order[k] ++ ": " ++ e)) := by
  obtain ⟨hnodup, hdb, _⟩ := topologicalSort_ok_props hsort
  have hsplit : order = order.take k ++ order.drop k := (List.take_append_drop k order).symm
  have hdropk : order.drop k = order[k] :: order.drop (k + 1) :=
    List.drop_eq_getElem_cons hk
  have hlen : (order.take k).length = k := by
    rw [List.length_take]
    omega
  have htake_nd : (order.take k).Nodup := hnodup.sublist (List.take_sublist k order)
  have hgettake : ∀ j, (hj : j < k) → (order.take k)[j] = order[j] := by
    intro j hj
    exact List.getElem_take order
  have htaketake : ∀ j, j ≤ k → (order.take k).take j = order.take j := by
    intro j hj
    rw [List.take_take, min_eq_left hj]
  have hchunk := runOrder_chunk r.components (r.components.length + 1) (order.take k) ∅ []
    (order.drop k)
    (by
      intro j hj
      rw [hlen] at hj
      obtain ⟨cj, hcj, hresj⟩ := hpre j hj
      rw [hgettake j hj]
      refine ⟨cj, hcj, hresj, ?_⟩
      intro d hd
      refine Or.inr ?_
      have hdep : d ∈ depsOf r.components (order[j]) := by
        simp [depsOf, hcj, valDeps, hd]
      have hmem2 := hdb j (by omega) d hdep
      rw [htaketake j (by omega)]
      exact hmem2)
    (by
      intro j hj
      exact ⟨by simp, nodup_getElem_not_mem_take htake_nd j hj⟩)
  have hknot : order[k] ∉ (order.take k).toFinset := by
    rw [List.mem_toFinset]
    exact nodup_getElem_not_mem_take hnodup k hk
  have hdepsk : ∀ d ∈ ck.deps, d ∈ (order.take k).toFinset := by
    intro d hd
    rw [List.mem_toFinset]
    have hdep : d ∈ depsOf r.components (order[k]) := by
      simp [depsOf, hck, valDeps, hd]
    exact hdb k hk d hdep
  have hrun : runOrder r.components (r.components.length + 2) order ⟨r.initDone, []⟩ =
      (⟨(order.take k).toFinset, order.take (k + 1)⟩,
        some ("initializing " ++ order[k] ++ ": " ++ e)) := by
    rw [hdone]
    rw [show r.components.length + 2 = (r.components.length + 1) + 1 from rfl]
    conv_lhs => rw [hsplit]
    rw [hchunk]
    simp only [Finset.empty_union, List.nil_append]
    rw [hdropk]
    simp only [runOrder]
    rw [initOne_succ_run (by simpa using hknot) hck (by simpa using hdepsk), hfail]
    show (({ initDone := (order.take k).toFinset, trace := order.take k ++ [order[k]] } : InitSt),
      some ("initializing " ++ order[k] ++ ": " ++ e)) = _
    rw [show order.take k ++ [order[k]] = order.take (k + 1) from by
      rw [← List.take_concat_get order k hk, List.concat_eq_append]]
  exact initAll_ok_eq hsort hrun

def failReg : Registry :=
  ⟨[("a", RegValue.initComp ⟨"a", [], none, none⟩),
    ("b", RegValue.initComp ⟨"b", ["a"], some "boom", none⟩),
    ("c", RegValue.initComp ⟨"c", ["b"], none, none⟩)], ∅, [], []⟩

/-- Witness for C4: chain `a ← b ← c` where `b`'s init fails: `a` runs,
`b` is attempted, `c` never runs, `a` stays initialized. -/
theorem initAll_first_init_failure_witness :
    initAll failReg =
      ({ failReg with initOrder := ["a", "b", "c"], initDone := (["a", "b", "c"].take 1).toFinset },
      ["a", "b", "c"].take 2,
      some ("initializing " ++ (["a", "b", "c"][1]) ++ ": " ++ "boom")) := by
  refine initAll_first_init_failure failReg ["a", "b", "c"] (by rfl) rfl 1 (by decide)
    ⟨"b", ["a"], some "boom", none⟩ (by rfl) "boom" rfl ?_
  intro j hj
  cases j with
  | zero => exact ⟨⟨"a", [], none, none⟩, rfl, rfl⟩
  | succ j => omega

/-- Claim C6 as amended: after a fully successful `Initialize`, a second
`Initialize` invokes no init action (empty trace, same registry, no
error); and more generally no `Initialize` call ever invokes the init
action of a component already in the initialized set — a component's
init can only be re-invoked if its earlier attempts failed. -/
theorem initAll_idempotent_after_success (r : Registry) :
    (∀ r2 tr, initAll r = (r2, tr, none) → initAll r2 = (r2, [], none)) ∧
    (∀ n ∈ r.initDone, n ∉ (initAll r).2.1) := by
  constructor
  · intro r2 tr h
    cases hts : topologicalSort r.components with
    | error e =>
      unfold initAll at h
      rw [hts] at h
      simp at h
    | ok order =>
      cases hrun : runOrder r.components (r.components.length + 2) order ⟨r.initDone, []⟩ with
      | mk s err =>
        have h2 := initAll_ok_eq hts hrun
        rw [h2] at h
        have hr2 : r2 = { r with initOrder := order, initDone := s.initDone } :=
          (congrArg Prod.fst h).symm
        have herr : err = none := congrArg (fun p => p.2.2) h
        subst herr
        have hmemall : ∀ n ∈ order, n ∈ s.initDone :=
          runOrder_ok_mem r.components (r.components.length + 2) order _ s hrun
        have hts2 : topologicalSort r2.components = Except.ok order := by
          rw [hr2]
          exact hts
        have hrun2 : runOrder r2.components (r2.components.length + 2) order
            ⟨r2.initDone, []⟩ = (⟨r2.initDone, []⟩, none) := by
          rw [show r2.components.length + 2 = (r2.components.length + 1) + 1 from rfl]
          refine runOrder_all_done r2.components _ order _ ?_
          intro n hn
          show n ∈ r2.initDone
          rw [hr2]
          exact hmemall n hn
        have h3 := initAll_ok_eq hts2 hrun2
        rw [h3, hr2]
  · intro n hn
    cases hts : topologicalSort r.components with
    | error e =>
      unfold initAll
      rw [hts]
      simp
    | ok order =>
      cases hrun : runOrder r.components (r.components.length + 2) order ⟨r.initDone, []⟩ with
      | mk s err =>
        rw [initAll_ok_eq hts hrun]
        show n ∉ s.trace
        have hp := runOrder_pres r.components (r.components.length + 2) order ⟨r.initDone, []⟩
        rw [hrun] at hp
        obtain ⟨_, t, ht, hmt⟩ := hp
        show n ∉ s.trace
        rw [ht]
        intro hc
        rcases List.mem_append.1 hc with h1 | h1
        · simp at h1
        · exact hmt n h1 hn

def failOnceReg : Registry :=
  ⟨[("a", RegValue.initComp ⟨"a", [], some "boom", none⟩)], ∅, [], []⟩

/-- Counterexample to claim C6 as stated: with a single component whose
init fails, calling `Initialize` twice invokes that component's init
action in both calls — an init action is invoked twice across a
sequence of `Initialize` calls (the initialized set only guards
components whose init succeeded). -/
theorem init_invoked_twice_counterexample :
    (initAll failOnceReg).2.1 = ["a"] ∧
    (initAll (initAll failOnceReg).1).2.1 = ["a"] :=
  ⟨rfl, rfl⟩

/-- Witness for C6 (amended): re-running `Initialize` after the fully
successful run on the `a`, `b → a` registry does nothing. -/
theorem initAll_idempotent_after_success_witness :
    initAll (initAll exReg).1 = ((initAll exReg).1, [], none) :=
  (initAll_idempotent_after_success exReg).1 (initAll exReg).1 (initAll exReg).2.1 rfl

/-- Claim C5: `Shutdown` walks `initOrder` in exact reverse.  If, in the
reversed order, the names `l1` come first (none of them a failing
`Shutdowner`), then `m` (a failing `Shutdowner`), the invoked shutdown
actions are exactly the `Shutdowner`-capable entries of `l1` in reverse
init order followed by `m`; the error names `m`; and no component of
`l2` — i.e. earlier in `initOrder` — is shut down.  Names without the
capability (or absent from the components map) are skipped with no
error, as the filter shows; and when no component fails the whole
reverse walk runs (conjunct 2). -/
theorem Shutdown_reverse_abort (r : Registry) (hnd : r.initOrder.Nodup) :
    (∀ l1 m l2 e, r.initOrder.reverse = l1 ++ m :: l2 →
      (∀ n ∈ l1, ∀ e0, shutRes r.components n ≠ some (some e0)) →
      shutRes r.components m = some (some e) →
      Shutdown r =
        ((l1.filter (fun n => (shutRes r.components n).isSome)).map SEvent.comp
            ++ [SEvent.comp m],
          some ("shutting down " ++ m ++ ": " ++ e)) ∧
        (∀ n ∈ l2, SEvent.comp n ∉ (Shutdown r).1)) ∧
    ((∀ n ∈ r.initOrder, ∀ e0, shutRes r.components n ≠ some (some e0)) →
      Shutdown r =
        ((r.initOrder.reverse.filter
              (fun n => (shutRes r.components n).isSome)).map SEvent.comp
            ++ (List.range (hookRunCount r.shutdownHooks)).map SEvent.hook,
          firstHookErr r.shutdownHooks)) := by
  constructor
  · intro l1 m l2 e hsplit hokl1 hfail
    have hwalk := shutdownWalk_fail r.components hfail l1 l2 [] hokl1
    have hSh : Shutdown r =
        ((l1.filter (fun n => (shutRes r.components n).isSome)).map SEvent.comp
            ++ [SEvent.comp m],
          some ("shutting down " ++ m ++ ": " ++ e)) := by
      unfold Shutdown
      rw [hsplit, hwalk]
      simp only [List.nil_append]
    refine ⟨hSh, ?_⟩
    have hndr : (l1 ++ m :: l2).Nodup := by
      rw [← hsplit]
      exact List.nodup_reverse.2 hnd
    have hdisj := (List.nodup_append.1 hndr).2.2
    have hmnotl2 : m ∉ l2 := by
      have := (List.nodup_append.1 hndr).2.1
      exact (List.nodup_cons.1 this).1
    intro n hn hc
    rw [hSh] at hc
    rcases List.mem_append.1 hc with h1 | h1
    · obtain ⟨x, hx, hxe⟩ := List.mem_map.1 h1
      have hxn : x = n := by injection hxe
      subst hxn
      exact hdisj (List.mem_of_mem_filter hx) (List.mem_cons_of_mem m hn)
    · have : SEvent.comp n = SEvent.comp m := List.mem_singleton.1 h1
      have hnm : n = m := by injection this
      exact hmnotl2 (hnm ▸ hn)
  · intro hall
    unfold Shutdown
    rw [shutdownWalk_no_fail r.components r.initOrder.reverse []
      (fun n hn e0 => hall n (List.mem_reverse.1 hn) e0)]
    show runHooks r.shutdownHooks 0
      ([] ++ (r.initOrder.reverse.filter
        (fun n => (shutRes r.components n).isSome)).map SEvent.comp) = _
    rw [runHooks_spec, ← List.range_eq_range']
    simp only [List.nil_append]

/-- Witness for C5: after initializing `a` then `b`, `c`'s teardown
(first in the reverse walk) fails, so `b`, `a` are never shut down. -/
theorem Shutdown_reverse_abort_witness :
    Shutdown ⟨[("a", RegValue.initComp compA), ("b", RegValue.initComp compB),
        ("c", RegValue.initComp ⟨"c", ["b"], none, some (some "sboom")⟩)],
      ∅, ["a", "b", "c"], []⟩ =
      ([SEvent.comp "c"], some ("shutting down " ++ "c" ++ ": " ++ "sboom")) ∧
    SEvent.comp "a" ∉ (Shutdown ⟨[("a", RegValue.initComp compA), ("b", RegValue.initComp compB),
        ("c", RegValue.initComp ⟨"c", ["b"], none, some (some "sboom")⟩)],
      ∅, ["a", "b", "c"], []⟩).1 := by
  have h := ((Shutdown_reverse_abort ⟨[("a", RegValue.initComp compA),
      ("b", RegValue.initComp compB),
      ("c", RegValue.initComp ⟨"c", ["b"], none, some (some "sboom")⟩)],
    ∅, ["a", "b", "c"], []⟩ (by decide)).1 [] "c" ["b", "a"] "sboom" rfl (by simp) rfl)
  exact ⟨h.1, h.2 "a" (by simp)⟩

/-- Claim C7: the extra shutdown hooks run only after the reverse
component walk completes without error (a failing walk yields a trace
with no hook event at all); when the walk succeeds they run in
registration order `0, 1, 2, …` up to and including the first failing
hook, whose error (if any) is returned. -/
theorem Shutdown_hooks_after_walk (r : Registry) :
    (∀ tw e, shutdownWalk r.components r.initOrder.reverse [] = (tw, some e) →
      Shutdown r = (tw, some e) ∧ ∀ i, SEvent.hook i ∉ tw) ∧
    (∀ tw, shutdownWalk r.components r.initOrder.reverse [] = (tw, none) →
      Shutdown r = (tw ++ (List.range (hookRunCount r.shutdownHooks)).map SEvent.hook,
        firstHookErr r.shutdownHooks)) := by
  constructor
  · intro tw e h
    constructor
    · unfold Shutdown
      rw [h]
    · obtain ⟨t, ht, hc⟩ := shutdownWalk_events r.components r.initOrder.reverse []
      rw [h] at ht
      have htw : tw = t := by simpa using ht
      intro i hi
      rw [htw] at hi
      obtain ⟨n, hn⟩ := hc _ hi
      cases hn
  · intro tw h
    unfold Shutdown
    rw [h]
    show runHooks r.shutdownHooks 0 tw = _
    rw [runHooks_spec, ← List.range_eq_range']

/-- Witness for C7: one component plus hooks `[ok, fail, ok]` — the
component is torn down, hooks 0 and 1 run, hook 2 does not. -/
theorem Shutdown_hooks_after_walk_witness :
    Shutdown ⟨[("a", RegValue.initComp compA)], ∅, ["a"], [none, some "hb", none]⟩ =
      ([SEvent.comp "a"] ++ (List.range (hookRunCount [none, some "hb", none])).map SEvent.hook,
        firstHookErr [none, some "hb", none]) :=
  (Shutdown_hooks_after_walk
    ⟨[("a", RegValue.initComp compA)], ∅, ["a"], [none, some "hb", none]⟩).2
    [SEvent.comp "a"] rfl

/-- Claim C8 as amended: init failures from the order walk are wrapped
as `initializing <name>: …` and component shutdown failures as
`shutting down <name>: …`, but ordering errors are returned by
`Initialize` unwrapped, and shutdown-hook errors are returned by
`Shutdown` unwrapped (hooks have no component name); there is no
recovery or retry — every error propagates to the caller. -/
theorem errors_phase_wrapping (r : Registry) :
    (∀ e, topologicalSort r.components = Except.error e → initAll r = (r, [], some e)) ∧
    (∀ order e, topologicalSort r.components = Except.ok order →
      (initAll r).2.2 = some e →
      ∃ n e0, n ∈ order ∧ e = "initializing " ++ n ++ ": " ++ e0) ∧
    (∀ tr e, Shutdown r = (tr, some e) →
      (∃ n e0, n ∈ r.initOrder ∧ e = "shutting down " ++ n ++ ": " ++ e0) ∨
      firstHookErr r.shutdownHooks = some e) := by
  refine ⟨?_, ?_, ?_⟩
  · intro e h
    unfold initAll
    rw [h]
  · intro order e hts herr
    cases hrun : runOrder r.components (r.components.length + 2) order ⟨r.initDone, []⟩ with
    | mk s err =>
      rw [initAll_ok_eq hts hrun] at herr
      have herr2 : err = some e := herr
      rw [herr2] at hrun
      obtain ⟨n, hn, e0, he⟩ := runOrder_err_shape r.components _ order _ s e hrun
      exact ⟨n, e0, hn, he⟩
  · intro tr e h
    unfold Shutdown at h
    cases hw : shutdownWalk r.components r.initOrder.reverse [] with
    | mk tw res =>
      rw [hw] at h
      cases res with
      | some e1 =>
        have h2 : ((tw, some e1) : List SEvent × Option String) = (tr, some e) := h
        have he : some e1 = some e := congrArg (fun p => p.2) h2
        have he2 : e1 = e := by injection he
        subst he2
        obtain ⟨n, hn, e0, h3⟩ := shutdownWalk_err_shape r.components _ [] tw e1 hw
        exact Or.inl ⟨n, e0, List.mem_reverse.1 hn, h3⟩
      | none =>
        have h2 : runHooks r.shutdownHooks 0 tw = (tr, some e) := h
        rw [runHooks_spec] at h2
        exact Or.inr (congrArg (fun p => p.2) h2)

/-- Witness for C8 (amended): on the failing chain, the error is
`initializing b: boom` for `b` in the order. -/
theorem errors_phase_wrapping_witness :
    ∃ n e0, n ∈ ["a", "b", "c"] ∧
      "initializing b: boom" = "initializing " ++ n ++ ": " ++ e0 :=
  (errors_phase_wrapping failReg).2.1 ["a", "b", "c"] "initializing b: boom" rfl rfl

/-- Counterexample to claim C8 as stated: the cycle error returned by
`Initialize` on `a ↔ b` carries neither an `initializing <name>:` nor a
`shutting down <name>:` prefix — ordering errors are not wrapped. -/
theorem ordering_error_unwrapped_counterexample :
    (initAll cycReg).2.2 = some (cycleMsg "a") ∧
    (∀ n e0, cycleMsg "a" ≠ "initializing " ++ n ++ ": " ++ e0) ∧
    (∀ n e0, cycleMsg "a" ≠ "shutting down " ++ n ++ ": " ++ e0) := by
  refine ⟨rfl, ?_, ?_⟩
  · intro n e0 h
    have h2 : (some 'c' : Option Char) = some 'i' := congrArg (fun s => s.data.head?) h
    exact absurd h2 (by decide)
  · intro n e0 h
    have h2 : (some 'c' : Option Char) = some 's' := congrArg (fun s => s.data.head?) h
    exact absurd h2 (by decide)

/-- Claim C9: `CheckHealth` returns one result per registered checker —
the key list of the result map equals the key list of the checker map —
each carrying exactly the status and error that checker returned, and a
timestamp no older than the clock at the start of the call.  The health
registry is a separate structure, so the result does not depend on the
lifecycle registry's state at all. -/
theorem checkHealth_results (checkers : List (String × HChecker)) (t0 : Nat) :
    (CheckHealth checkers t0).map Prod.fst = checkers.map Prod.fst ∧
    ∀ i, (hi : i < (CheckHealth checkers t0).length) → (hi2 : i < checkers.length) →
      ((CheckHealth checkers t0)[i]).2.status = (checkers[i]).2.status ∧
      ((CheckHealth checkers t0)[i]).2.errMsg = (checkers[i]).2.errMsg ∧
      t0 ≤ ((CheckHealth checkers t0)[i]).2.time :=
  checkHealthAux_spec checkers t0 t0 le_rfl

/-- Witness for C9 at a one-checker registry entered at clock 10. -/
theorem checkHealth_results_witness :
    ((CheckHealth [("x", ⟨HealthStatus.healthy, none, 3⟩)] 10)[0]).2.status
      = HealthStatus.healthy ∧
    10 ≤ ((CheckHealth [("x", ⟨HealthStatus.healthy, none, 3⟩)] 10)[0]).2.time := by
  have h := (checkHealth_results [("x", ⟨HealthStatus.healthy, none, 3⟩)] 10).2 0
    (by decide) (by decide)
  exact ⟨h.1, h.2.2⟩

/-- Claim C10: `Register` silently drops any value that does not
implement `Initializer`: it returns normally (there is no error
channel) and the registry — components, initialized set, init order and
shutdown hooks — is left completely unchanged. -/
theorem Register_plain_noop (r : Registry) : Register RegValue.plain r = r := rfl

/-- Witness for C3: the two-cycle `a → b → a`. -/
theorem cycle_error_aborts_initAll_witness :
    ∃ m, topologicalSort cycReg.components = Except.error (cycleMsg m) ∧
      Relation.TransGen (Dep cycReg.components) m m ∧
      initAll cycReg = (cycReg, [], some (cycleMsg m)) := by
  refine cycle_error_aborts_initAll cycReg "a" ?_
  have hab : Dep cycReg.components "a" "b" :=
    ⟨⟨"a", ["b"], none, none⟩, rfl, by simp⟩
  have hba : Dep cycReg.components "b" "a" :=
    ⟨⟨"b", ["a"], none, none⟩, rfl, by simp⟩
  exact Relation.TransGen.head hab (Relation.TransGen.single hba)

end Core
